import Mathlib

/-!
Verification of the rustcalc arithmetic core (lexer, precedence-climbing
parser, f64 expression evaluator) against its natural-language specification.

The Rust sources are shallowly embedded below: `src/lexer.rs` as a character
scanner producing a token list, `src/parser.rs` as a fuel-indexed
precedence-climbing parser (with a proof that the fuel chosen by the top-level
entry point always suffices), and `src/expression.rs` as a recursive evaluator
over a model of IEEE-754 binary64 values.  Finite doubles are carried as exact
rationals and every inexact operation rounds its exact rational result to
nearest, ties to even, exactly as IEEE-754 prescribes.
-/

set_option maxRecDepth 100000
set_option exponentiation.threshold 3000
set_option maxHeartbeats 4000000

namespace Rustcalc

/-! ## IEEE-754 binary64 model -/

/-- Round a rational to an integer, to nearest with ties to even. -/
def rhe (x : ℚ) : ℤ :=
  if x - ⌊x⌋ < 1/2 then ⌊x⌋
  else if 1/2 < x - ⌊x⌋ then ⌊x⌋ + 1
  else if ⌊x⌋ % 2 = 0 then ⌊x⌋ else ⌊x⌋ + 1

/-- Powers of two by binary exponentiation, driven by a fuel argument that
only serves structural termination (the recursion halves the exponent, so
evaluation is logarithmic in it). -/
def pow2f : ℕ → ℕ → ℕ
  | 0, _ => 1
  | _ + 1, 0 => 1
  | f + 1, k => (if k % 2 = 0 then 1 else 2) * pow2f f (k / 2) * pow2f f (k / 2)

/-- The natural number `2^k`, computed by binary exponentiation. -/
def pow2n (k : ℕ) : ℕ := pow2f k k

/-- Floor of the base-2 logarithm of a natural number, driven by a fuel
argument that only serves structural termination; the recursion divides by
large powers of two first so that evaluation takes logarithmically many
steps. -/
def log2f : ℕ → ℕ → ℕ
  | 0, _ => 0
  | f + 1, n =>
    if pow2n 256 ≤ n then log2f f (n / pow2n 256) + 256
    else if pow2n 64 ≤ n then log2f f (n / pow2n 64) + 64
    else if pow2n 16 ≤ n then log2f f (n / pow2n 16) + 16
    else if pow2n 4 ≤ n then log2f f (n / pow2n 4) + 4
    else if 2 ≤ n then log2f f (n / 2) + 1
    else 0

/-- Floor of the base-2 logarithm of a natural number (`0` for `n ≤ 1`). -/
def natLog2 (n : ℕ) : ℕ := log2f n n

/-- Floor of the base-2 logarithm of a positive rational, computed through a
`2^1100` scaling.  For `q < 2^-1100` it returns `-1100`, which is below the
binary64 subnormal cutoff and therefore interchangeable with the true
logarithm inside `ulpExp`. -/
def qLog2 (q : ℚ) : ℤ := (natLog2 (q.num.toNat * pow2n 1100 / q.den) : ℤ) - 1100

/-- Exponent of the unit in the last place of a binary64 number of magnitude
`a` (for `a` in the normal range this is `exponent - 52`; below the normal
range it is the fixed subnormal spacing `2^-1074`). -/
def ulpExp (a : ℚ) : ℤ := max (qLog2 a - 52) (-1074)

/-- The rational `2^e`, computed through natural-number exponentiation (which
the kernel evaluates efficiently); equal to the rational `z`-power of two. -/
def pow2z (e : ℤ) : ℚ :=
  if 0 ≤ e then ((pow2n e.toNat : ℕ) : ℚ) else Rat.divInt 1 (pow2n (-e).toNat)

/-- Round a rational to the binary64 grid (round to nearest, ties to even),
with unbounded exponent; overflow to infinity is decided by the caller
(`f64ofRat`) by comparing the result against `2^1024`. -/
def rndQ (q : ℚ) : ℚ :=
  if q = 0 then 0
  else
    let u : ℚ := pow2z (ulpExp |q|)
    (rhe (q / u) : ℚ) * u

/-- Model of an IEEE-754 binary64 value.  Finite values carry their exact
rational value; zero is unsigned in this model (no claim checked in this
development observes the sign of a zero). -/
inductive F64 : Type
  | nan : F64
  | inf (neg : Bool) : F64
  | fin (q : ℚ) : F64

/-- Boolean equality on `F64` values (comparing finite values through their
numerator and denominator, which the kernel evaluates efficiently). -/
def F64.beq : F64 → F64 → Bool
  | .nan, .nan => true
  | .inf a, .inf b => a == b
  | .fin a, .fin b => a.num == b.num && a.den == b.den
  | _, _ => false

theorem F64.beq_iff_eq : ∀ a b : F64, F64.beq a b = true ↔ a = b := by
  intro a b
  cases a <;> cases b <;> simp [F64.beq]
  exact ⟨fun h => Rat.ext h.1 h.2, fun h => by simp [h]⟩

instance : DecidableEq F64 := fun a b =>
  decidable_of_iff (F64.beq a b = true) (F64.beq_iff_eq a b)

/-- The largest finite binary64 value, `f64::MAX = (2^53 - 1) * 2^971`. -/
def maxQ : ℚ := (((pow2n 53 - 1) * pow2n 971 : ℕ) : ℚ)

/-- Magnitudes whose rounded value reaches `2^1024` overflow to infinity. -/
def hugeQ : ℚ := ((pow2n 1024 : ℕ) : ℚ)

/-- Round an exact rational result into a binary64 value (or infinity on
overflow). -/
def f64ofRat (q : ℚ) : F64 :=
  let r := rndQ q
  if hugeQ ≤ r then .inf false
  else if r ≤ -hugeQ then .inf true
  else .fin r

/-- Truncation of a rational toward zero (the rounding used by Rust `f64::trunc`
and by float-to-integer casts). -/
def ratTrunc (q : ℚ) : ℤ := if 0 ≤ q then ⌊q⌋ else ⌈q⌉

namespace F64

/-- IEEE-754 addition: the exact sum, rounded. -/
def add : F64 → F64 → F64
  | nan, _ => nan
  | _, nan => nan
  | inf a, inf b => if a = b then inf a else nan
  | inf a, fin _ => inf a
  | fin _, inf b => inf b
  | fin a, fin b => f64ofRat (a + b)

/-- IEEE-754 subtraction: the exact difference, rounded. -/
def sub : F64 → F64 → F64
  | nan, _ => nan
  | _, nan => nan
  | inf a, inf b => if a = b then nan else inf a
  | inf a, fin _ => inf a
  | fin _, inf b => inf (!b)
  | fin a, fin b => f64ofRat (a - b)

/-- IEEE-754 multiplication: the exact product, rounded. -/
def mul : F64 → F64 → F64
  | nan, _ => nan
  | _, nan => nan
  | inf a, inf b => inf (a != b)
  | inf a, fin q => if q = 0 then nan else inf (a != decide (q < 0))
  | fin q, inf b => if q = 0 then nan else inf (b != decide (q < 0))
  | fin a, fin b => f64ofRat (a * b)

/-- IEEE-754 division: the exact quotient, rounded; division by zero gives a
signed infinity (or NaN for 0/0). -/
def div : F64 → F64 → F64
  | nan, _ => nan
  | _, nan => nan
  | inf _, inf _ => nan
  | inf a, fin q => inf (a != decide (q < 0))
  | fin _, inf _ => fin 0
  | fin a, fin b =>
    if b = 0 then (if a = 0 then nan else inf (decide (a < 0)))
    else f64ofRat (a / b)

/-- IEEE-754 negation. -/
def neg : F64 → F64
  | nan => nan
  | inf b => inf (!b)
  | fin q => fin (-q)

/-- Rust's `%` on `f64` (the truncated-division remainder, C `fmod`): exact,
with the sign of the dividend; NaN for an infinite dividend or a zero divisor,
and the dividend itself for an infinite divisor.  The exact result is always
representable, so this operation never rounds. -/
def fmod : F64 → F64 → F64
  | nan, _ => nan
  | _, nan => nan
  | inf _, _ => nan
  | fin a, inf _ => fin a
  | fin a, fin b => if b = 0 then nan else fin (a - (ratTrunc (a / b) : ℚ) * b)

/-- Whether a rational is an odd integer (used by the sign rules of `pow`). -/
def isOddInt (q : ℚ) : Bool := q.den = 1 && q.num % 2 ≠ 0

/-- Model of `f64::powf` following the IEEE-754 `pow` special cases.  Finite
integral exponents are modelled exactly (the correctly rounded exact power,
which is what the repository's own test-suite asserts of the platform libm);
for a non-integral finite exponent on a positive base the true function is
transcendental, that branch is not exercised by any theorem below and is
modelled as NaN. -/
def pow (a b : F64) : F64 :=
  if b = fin 0 then fin 1
  else if a = fin 1 then fin 1
  else
    match a, b with
    | nan, _ => nan
    | _, nan => nan
    | inf _, inf bn => if bn then fin 0 else inf false
    | inf an, fin q => if 0 < q then inf (an && isOddInt q) else fin 0
    | fin q, inf bn =>
      if q = -1 then fin 1
      else if 1 < |q| then (if bn then fin 0 else inf false)
      else (if bn then inf false else fin 0)
    | fin q, fin r =>
      if r.den = 1 then
        if q = 0 then (if 0 < r then fin 0 else inf false)
        else f64ofRat (q ^ r.num)
      else nan

/-- Rust `f64::round`: round to the nearest integer, ties away from zero. -/
def roundHA : F64 → F64
  | nan => nan
  | inf b => inf b
  | fin q => fin (if 0 ≤ q then (⌊q + 1/2⌋ : ℤ) else (⌈q - 1/2⌉ : ℤ))

/-- Rust `f64::trunc`. -/
def trunc : F64 → F64
  | nan => nan
  | inf b => inf b
  | fin q => fin (ratTrunc q)

/-- Rust `f64::fract = self - self.trunc()`: NaN on infinities (∞ - ∞). -/
def fract : F64 → F64
  | nan => nan
  | inf _ => nan
  | fin q => fin (q - (ratTrunc q : ℚ))

/-- Rust's saturating `as i64` cast (applied after `trunc` in the source):
NaN casts to 0, and out-of-range values clamp to the `i64` bounds. -/
def castI64 : F64 → ℤ
  | nan => 0
  | inf b => if b then -((pow2n 63 : ℕ) : ℤ) else ((pow2n 63 - 1 : ℕ) : ℤ)
  | fin q => max (-((pow2n 63 : ℕ) : ℤ)) (min ((pow2n 63 - 1 : ℕ) : ℤ) (ratTrunc q))

/-- IEEE-754 `<` : false whenever either operand is NaN. -/
def flt : F64 → F64 → Bool
  | nan, _ => false
  | _, nan => false
  | inf a, inf b => a && !b
  | inf a, fin _ => a
  | fin _, inf b => !b
  | fin a, fin b => a < b

/-- IEEE-754 `==` : false whenever either operand is NaN. -/
def feq : F64 → F64 → Bool
  | nan, _ => false
  | _, nan => false
  | inf a, inf b => a = b
  | inf _, fin _ => false
  | fin _, inf _ => false
  | fin a, fin b => a = b

/-- IEEE-754 `!=` (the negation of `==`, hence true whenever NaN appears). -/
def fne (a b : F64) : Bool := !feq a b

/-- Integer square root of `n * 4^320` scaled back, giving `√q` with 320
extra bits of precision before the final binary64 rounding. -/
def ratSqrtApprox (q : ℚ) : ℚ :=
  (Nat.sqrt (q.num.toNat * q.den * pow2n 640) : ℚ) / ((q.den : ℚ) * ((pow2n 320 : ℕ) : ℚ))

/-- Model of `f64::sqrt` (IEEE requires the correctly rounded result).  The
positive finite branch rounds an integer-square-root approximation carrying
320 guard bits, which yields the correctly rounded value except for inputs
adversarially close to a rounding boundary; no theorem in this development
evaluates that branch. -/
def fsqrt : F64 → F64
  | nan => nan
  | inf b => if b then nan else inf false
  | fin q =>
    if q < 0 then nan
    else if q = 0 then fin 0
    else f64ofRat (ratSqrtApprox q)

end F64

/-- The binary64 value of `f64::consts::PI` (the double nearest π). -/
def piQ : ℚ := 884279719003555 / 2 ^ 48

/-- The binary64 value of `f64::consts::E` (the double nearest e). -/
def eQ : ℚ := 6121026514868073 / 2 ^ 51

/-- The mathematical constants of `src/expression.rs`. -/
inductive Constant : Type
  | E
  | Infinity
  | NaN
  | Pi
deriving DecidableEq

/-- The `From<&Constant> for f64` conversion. -/
def Constant.toF64 : Constant → F64
  | .E => .fin eQ
  | .Infinity => .inf false
  | .NaN => .nan
  | .Pi => .fin piQ

example : F64.add (.fin 1) (.fin 2) = .fin 3 := by with_unfolding_all decide
example : F64.add (.inf false) (.inf true) = .nan := by with_unfolding_all decide
example : F64.fmod (.fin 5) (.fin 3) = .fin 2 := by with_unfolding_all decide
example : F64.fmod (.fin (-5)) (.fin 3) = .fin (-2) := by with_unfolding_all decide
example : F64.pow (.fin 2) (.fin 9) = .fin 512 := by with_unfolding_all decide
example : f64ofRat (314/100) = .fin (7070651414971679 / 2 ^ 51) := by
  with_unfolding_all decide

/-! ## Expression trees and the evaluator (`src/expression.rs`) -/

/-- The platform libm functions used by the evaluator whose results are not
bit-exactly specified (Rust documents `sin`, `cos`, `tan` as having
platform-dependent precision).  The evaluator is parameterized by them; every
theorem below holds for an arbitrary instantiation.  Each field gives the
value on a finite argument; the NaN/infinity cases are fixed by IEEE-754 and
handled outside the parameter. -/
structure LibM where
  sinQ : ℚ → F64
  cosQ : ℚ → F64
  tanQ : ℚ → F64

/-- Expression nodes, mirroring `enum Expression` of `src/expression.rs`. -/
inductive Expression : Type
  | Add (lhs rhs : Expression)
  | Constant (c : Rustcalc.Constant)
  | Cosine (e : Expression)
  | Degrees (e : Expression)
  | Divide (lhs rhs : Expression)
  | Exponentiate (lhs rhs : Expression)
  | Factorial (e : Expression)
  | Modulo (lhs rhs : Expression)
  | Multiply (lhs rhs : Expression)
  | Negate (e : Expression)
  | Number (v : F64)
  | Radians (e : Expression)
  | Round (value decimals : Expression)
  | Sine (e : Expression)
  | SquareRoot (e : Expression)
  | Subtract (lhs rhs : Expression)
  | Tangent (e : Expression)
deriving DecidableEq

/-- The Modulo arm of `Expression::evaluate`: `((l % r) + r) % r` with Rust's
truncating `%` on `f64`. -/
def modOp (l r : F64) : F64 := F64.fmod (F64.add (F64.fmod l r) r) r

/-- The IEEE-754 `remainder` operation (round-to-nearest quotient, exact
result), modelled from the specification's words for comparison with the
truncating `%` the source actually uses; the non-finite cases follow the
IEEE remainder rules the specification appeals to. -/
def remIEEE : F64 → F64 → F64
  | .nan, _ => .nan
  | _, .nan => .nan
  | .inf _, _ => .nan
  | .fin a, .inf _ => .fin a
  | .fin a, .fin b => if b = 0 then .nan else .fin (a - (rhe (a / b) : ℚ) * b)

/-- The specification's Modulo formula `((l rem r) + r) rem r` with `rem`
the IEEE-754 remainder operation (spec-modelled, for comparison with
`modOp`). -/
def specModulo (l r : F64) : F64 := remIEEE (F64.add (remIEEE l r) r) r

/-- Left fold `1.0 * 1 * 2 * ... * n` in binary64 (the `fold` of the
Factorial arm), with the multiplier being the `i64 → f64` cast of the index. -/
def foldFactN : ℕ → F64
  | 0 => .fin 1
  | n + 1 => F64.mul (foldFactN n) (f64ofRat ((n : ℚ) + 1))

/-- The fold over `1..=k` for an `i64` bound `k` (empty for `k ≤ 0`). -/
def foldFact (k : ℤ) : F64 := foldFactN k.toNat

/-- The Factorial arm of `Expression::evaluate`. -/
def factOp (n : F64) : F64 :=
  if F64.feq n (.inf false) then n
  else if F64.flt n (.fin 0) || F64.fne (F64.fract n) (.fin 0) then .nan
  else foldFact (F64.castI64 (F64.trunc n))

/-- The Factorial contract as the specification words it: `+∞ ↦ +∞`; a
negative or fractional operand (including NaN, whose fractional part is NaN)
gives NaN; otherwise the product `1 × 2 × ⋯ × trunc(n)` accumulated in
double precision (empty for `trunc(n) ≤ 0`, so `0! = 1`). -/
def specFactorial : F64 → F64
  | .nan => .nan
  | .inf b => if b then .nan else .inf false
  | .fin q => if q < 0 ∨ q.den ≠ 1 then .nan else foldFact (ratTrunc q)

/-- The Round arm of `Expression::evaluate`: NaN for negative or fractional
(including NaN/infinite) decimal counts, otherwise
`(scale * n).round() / scale` with `scale = 10f64.powf(d)`. -/
def roundOp (n d : F64) : F64 :=
  if F64.flt d (.fin 0) || F64.fne (F64.fract d) (.fin 0) then .nan
  else
    let scale := F64.pow (.fin 10) d
    F64.div (F64.roundHA (F64.mul scale n)) scale

/-- The `f64::to_degrees` conversion: multiplication by the compile-time
double constant `180.0 / consts::PI`. -/
def degreesOp (x : F64) : F64 := F64.mul x (F64.div (.fin 180) (.fin piQ))

/-- The `f64::to_radians` conversion: multiplication by the compile-time
double constant `consts::PI / 180.0`. -/
def radiansOp (x : F64) : F64 := F64.mul x (F64.div (.fin piQ) (.fin 180))

/-- Trigonometric dispatch: IEEE fixes NaN on non-finite arguments, the
finite case is delegated to the libm parameter. -/
def trigOp (f : ℚ → F64) : F64 → F64
  | .fin q => f q
  | _ => .nan

/-- Model of `Expression::evaluate` (`src/expression.rs`): a pure recursive
fold producing a binary64 value; never fails. -/
def evaluate (lib : LibM) : Expression → F64
  | .Add l r => F64.add (evaluate lib l) (evaluate lib r)
  | .Constant c => c.toF64
  | .Cosine e => trigOp lib.cosQ (evaluate lib e)
  | .Degrees e => degreesOp (evaluate lib e)
  | .Divide l r => F64.div (evaluate lib l) (evaluate lib r)
  | .Exponentiate l r => F64.pow (evaluate lib l) (evaluate lib r)
  | .Factorial e => factOp (evaluate lib e)
  | .Modulo l r => modOp (evaluate lib l) (evaluate lib r)
  | .Multiply l r => F64.mul (evaluate lib l) (evaluate lib r)
  | .Negate e => F64.neg (evaluate lib e)
  | .Number v => v
  | .Radians e => radiansOp (evaluate lib e)
  | .Round v d => roundOp (evaluate lib v) (evaluate lib d)
  | .Sine e => trigOp lib.sinQ (evaluate lib e)
  | .SquareRoot e => F64.fsqrt (evaluate lib e)
  | .Subtract l r => F64.sub (evaluate lib l) (evaluate lib r)
  | .Tangent e => trigOp lib.tanQ (evaluate lib e)

example : modOp (.fin (-5)) (.fin 3) = .fin 1 := by with_unfolding_all decide
example : modOp (.fin 5) (.fin (-3)) = .fin (-1) := by with_unfolding_all decide
example : factOp (.fin 3) = .fin 6 := by with_unfolding_all decide
example : factOp (.fin 0) = .fin 1 := by with_unfolding_all decide
example : factOp (.fin (-1)) = .nan := by with_unfolding_all decide
example : factOp (.inf false) = .inf false := by with_unfolding_all decide
example : roundOp (.fin (314/100)) (.fin (-1)) = .nan := by with_unfolding_all decide

/-! ## Lexer (`src/lexer.rs`) -/

/-- Lexer tokens, mirroring `enum Token` of `src/lexer.rs`. -/
inductive Token : Type
  | Number (lit : String)
  | Ident (name : String)
  | Plus
  | Minus
  | Asterisk
  | Slash
  | Caret
  | SquareRoot
  | Percent
  | Exclamation
  | OpenParen
  | CloseParen
  | Comma
deriving DecidableEq

/-- The `Display` rendering of a token (used in parser error messages). -/
def tokenStr : Token → String
  | .Number n => n
  | .Ident s => s
  | .Plus => "+"
  | .Minus => "-"
  | .Asterisk => "*"
  | .Slash => "/"
  | .Caret => "^"
  | .SquareRoot => "√"
  | .Percent => "%"
  | .Exclamation => "!"
  | .OpenParen => "("
  | .CloseParen => ")"
  | .Comma => ","

/-- Model of Rust `char::is_alphabetic`, restricted to the character set this
development exercises (ASCII letters together with the non-ASCII letters
`π`, `Π`, `Ï`, `ï` that occur in the repository's constant table and tests);
the real function accepts every Unicode letter. -/
def rustIsAlphabetic (c : Char) : Bool :=
  c.isAlpha || c = 'π' || c = 'Π' || c = 'Ï' || c = 'ï'

/-- Model of Rust `char::is_alphanumeric` under the same character-set
restriction as `rustIsAlphabetic`. -/
def rustIsAlphanumeric (c : Char) : Bool :=
  c.isAlphanum || c = 'π' || c = 'Π' || c = 'Ï' || c = 'ï'

/-- Model of Rust `char::is_whitespace` (`Char.isWhitespace` covers the ASCII
fragment of the Unicode White_Space property, which is all this development
exercises). -/
def rustIsWhitespace (c : Char) : Bool := c.isWhitespace

/-- Continuation characters of an identifier (`is_alphanumeric || '_'`). -/
def isIdentCont (c : Char) : Bool := rustIsAlphanumeric c || c = '_'

/-- `Lexer::scan_ident`: a leading alphabetic character followed by
alphanumerics and underscores. -/
def scanIdent : List Char → Option (Token × List Char)
  | [] => none
  | c :: rest =>
    if rustIsAlphabetic c then
      some (.Ident (String.mk (c :: rest.takeWhile isIdentCont)),
            rest.dropWhile isIdentCont)
    else none

/-- `Lexer::scan_number`: one or more digits, an optional `.` with zero or
more digits, and an optional `e`/`E` with an optional sign and zero or more
digits; the scanned substring is kept as text. -/
def scanNumber (cs : List Char) : Option (Token × List Char) :=
  let ds := cs.takeWhile Char.isDigit
  let r1 := cs.dropWhile Char.isDigit
  if ds.isEmpty then none
  else
    let fr :=
      match r1 with
      | '.' :: rest => ('.' :: rest.takeWhile Char.isDigit, rest.dropWhile Char.isDigit)
      | _ => ([], r1)
    let ex :=
      match fr.2 with
      | c :: rest =>
        if c = 'e' ∨ c = 'E' then
          let sg :=
            match rest with
            | s :: rest2 => if s = '+' ∨ s = '-' then ([s], rest2) else (([] : List Char), rest)
            | [] => (([] : List Char), rest)
          (c :: sg.1 ++ sg.2.takeWhile Char.isDigit, sg.2.dropWhile Char.isDigit)
        else (([] : List Char), fr.2)
      | [] => (([] : List Char), fr.2)
    some (.Number (String.mk (ds ++ fr.1 ++ ex.1)), ex.2)

/-- The single-character operator table of `Lexer::scan_operator`. -/
def opToken (c : Char) : Option Token :=
  if c = '+' then some .Plus
  else if c = '-' then some .Minus
  else if c = '*' then some .Asterisk
  else if c = '/' then some .Slash
  else if c = '^' then some .Caret
  else if c = '√' then some .SquareRoot
  else if c = '%' then some .Percent
  else if c = '!' then some .Exclamation
  else none

/-- The single-character punctuation table of `Lexer::scan_punctuation`. -/
def punctToken (c : Char) : Option Token :=
  if c = '(' then some .OpenParen
  else if c = ')' then some .CloseParen
  else if c = ',' then some .Comma
  else none

/-- A single-character scan step shared by operators and punctuation. -/
def scanSingle (f : Char → Option Token) : List Char → Option (Token × List Char)
  | [] => none
  | c :: rest => (f c).map (fun t => (t, rest))

/-- `Lexer::scan`: consume leading whitespace, then try the ident, number,
operator and punctuation productions in order. -/
def scan1 (cs : List Char) : Option (Token × List Char) :=
  let cs1 := cs.dropWhile rustIsWhitespace
  match scanIdent cs1 with
  | some r => some r
  | none =>
    match scanNumber cs1 with
    | some r => some r
    | none =>
      match scanSingle opToken cs1 with
      | some r => some r
      | none => scanSingle punctToken cs1

/-- The fuel-driven token-collection loop: scan until no production matches;
the leftover character (after whitespace), if any, is the one the lexer
reports as "Unexpected character".  `none` means the fuel ran out, which
`lexChars_total` below shows never happens for the fuel used by `lexChars`. -/
def lexGo : ℕ → List Char → Option (List Token × Option Char)
  | 0, _ => none
  | fuel + 1, cs =>
    match scan1 cs with
    | some (t, rest) => (lexGo fuel rest).map (fun p => (t :: p.1, p.2))
    | none => some ([], (cs.dropWhile rustIsWhitespace).head?)

/-- Tokenization of a character list (the lexer driven to exhaustion, as the
parser's `Peekable<Lexer>` does). -/
def lexChars (cs : List Char) : Option (List Token × Option Char) :=
  lexGo (cs.length + 1) cs

example : lexChars "1 + 2".data = some ([.Number "1", .Plus, .Number "2"], none) := by
  with_unfolding_all decide
example : lexChars "3e".data = some ([.Number "3e"], none) := by
  with_unfolding_all decide
example : lexChars "3.".data = some ([.Number "3."], none) := by
  with_unfolding_all decide
example : lexChars "3,14".data = some ([.Number "3", .Comma, .Number "14"], none) := by
  with_unfolding_all decide
example : lexChars "3.14.15".data = some ([.Number "3.14"], some '.') := by
  with_unfolding_all decide
example : lexChars "π".data = some ([.Ident "π"], none) := by
  with_unfolding_all decide
example : lexChars "√4!".data = some ([.SquareRoot, .Number "4", .Exclamation], none) := by
  with_unfolding_all decide

/-! ## Node builders (`Parser::build_*` of `src/parser.rs`) -/

/-- Model of Rust `String::to_lowercase` on one character, covering ASCII and
the non-ASCII letters this development exercises. -/
def rustToLower (c : Char) : Char :=
  if c = 'Π' then 'π' else if c = 'Ï' then 'ï' else c.toLower

/-- Model of Rust `String::to_lowercase` under the same character-set
restriction as `rustIsAlphabetic`. -/
def rustToLowercase (s : String) : String := String.mk (s.data.map rustToLower)

/-- `Parser::build_constant`: resolve a lowercased name against the constant
table.  The final alias arm is the byte-for-byte content of the string
literal in `src/parser.rs` line 169: the two characters U+00CF U+20AC
(a mojibake rendering of `π`), not the single character U+03C0. -/
def buildConstant (name : String) : Except String Expression :=
  let l := rustToLowercase name
  if l = "e" then .ok (.Constant .E)
  else if l = "inf" then .ok (.Constant .Infinity)
  else if l = "nan" then .ok (.Constant .NaN)
  else if l = "pi" then .ok (.Constant .Pi)
  else if l = "Ï€" then .ok (.Constant .Pi)
  else .error ("Unknown constant " ++ name)

/-- The `count_args` closure of `Parser::build_function`, with its exact
error strings. -/
def countArgs (name : String) (args : List Expression) (mn mx : ℕ) : Except String ℕ :=
  if mn ≤ args.length ∧ args.length ≤ mx then .ok args.length
  else if mn = mx then
    .error (name ++ "() takes " ++ toString mn ++ " args, received " ++
      toString args.length)
  else
    .error (name ++ "() takes " ++ toString mn ++ "-" ++ toString mx ++
      " args, received " ++ toString args.length)

/-- `Parser::build_function`: arity-check against the fixed table and build
the corresponding node (`round` defaults its decimal count to `0.0` when
called with one argument). -/
def buildFunction (name : String) (args : List Expression) : Except String Expression :=
  let arg := fun n => args.getD n (.Number (.fin 0))
  let l := rustToLowercase name
  if l = "cos" then do
    let _ ← countArgs name args 1 1
    .ok (.Cosine (arg 0))
  else if l = "degrees" then do
    let _ ← countArgs name args 1 1
    .ok (.Degrees (arg 0))
  else if l = "radians" then do
    let _ ← countArgs name args 1 1
    .ok (.Radians (arg 0))
  else if l = "round" then do
    let nargs ← countArgs name args 1 2
    let decimals := if nargs = 1 then Expression.Number (.fin 0) else arg 1
    .ok (.Round (arg 0) decimals)
  else if l = "sin" then do
    let _ ← countArgs name args 1 1
    .ok (.Sine (arg 0))
  else if l = "sqrt" then do
    let _ ← countArgs name args 1 1
    .ok (.SquareRoot (arg 0))
  else if l = "tan" then do
    let _ ← countArgs name args 1 1
    .ok (.Tangent (arg 0))
  else .error ("Unknown function " ++ name)

/-- Numeric value of a digit string. -/
def digitsToNat (ds : List Char) : ℕ :=
  ds.foldl (fun a c => 10 * a + (c.toNat - '0'.toNat)) 0

/-- Model of Rust `str::parse::<f64>` on the fragment of its grammar
reachable from the lexer (digit-leading literals with optional fraction and
exponent): the exact decimal value, correctly rounded to binary64.  Exponent
digits are required after an `e`/`E` marker, so `"3e"` fails. -/
def parseFloatLit (cs : List Char) : Option ℚ :=
  let ds := cs.takeWhile Char.isDigit
  let r1 := cs.dropWhile Char.isDigit
  if ds.isEmpty then none
  else
    let fr :=
      match r1 with
      | '.' :: rest => (rest.takeWhile Char.isDigit, rest.dropWhile Char.isDigit)
      | _ => (([] : List Char), r1)
    let mantissa : ℚ :=
      ((digitsToNat (ds ++ fr.1) : ℕ) : ℚ) / ((10 ^ fr.1.length : ℕ) : ℚ)
    match fr.2 with
    | [] => some mantissa
    | c :: rest =>
      if c = 'e' ∨ c = 'E' then
        let sg :=
          match rest with
          | s :: rest2 => if s = '+' then (false, rest2)
                          else if s = '-' then (true, rest2)
                          else (false, rest)
          | [] => (false, rest)
        let es := sg.2.takeWhile Char.isDigit
        if es.isEmpty ∨ ¬(sg.2.dropWhile Char.isDigit).isEmpty then none
        else
          let e := digitsToNat es
          if sg.1 then some (mantissa / ((10 ^ e : ℕ) : ℚ))
          else some (mantissa * ((10 ^ e : ℕ) : ℚ))
      else none

/-- Conversion of a number literal to a binary64 value. -/
def strToF64 (s : String) : Option F64 := (parseFloatLit s.data).map f64ofRat

/-- `Parser::build_number`: convert the scanned literal text, surfacing a
conversion failure as the parse error built from `num::ParseFloatError`. -/
def buildNumber (lit : String) : Except String Expression :=
  match strToF64 lit with
  | some v => .ok (.Number v)
  | none => .error "invalid number: invalid float literal"

example : strToF64 "3.14" = some (.fin (7070651414971679 / 2 ^ 51)) := by
  with_unfolding_all decide
example : strToF64 "3." = some (.fin 3) := by with_unfolding_all decide
example : strToF64 "3e2" = some (.fin 300) := by with_unfolding_all decide
example : strToF64 "3E2" = some (.fin 300) := by with_unfolding_all decide
example : strToF64 "3e-2" = some (.fin (Rat.divInt 1080863910568919 (2 ^ 55 : ℕ))) := by
  with_unfolding_all decide
example : strToF64 "3e" = none := by with_unfolding_all decide

/-! ## Operator classification (`src/parser.rs`) -/

/-- `ASSOCIATES_LEFT`. -/
def associatesLeft : ℕ := 1

/-- `ASSOCIATES_RIGHT`. -/
def associatesRight : ℕ := 0

/-- The prefix operators. -/
inductive PrefixOperator : Type
  | Minus
  | Plus
  | SquareRoot
deriving DecidableEq

/-- `PrefixOperator::from_token`. -/
def PrefixOperator.fromToken : Token → Option PrefixOperator
  | .Minus => some .Minus
  | .Plus => some .Plus
  | .SquareRoot => some .SquareRoot
  | _ => none

/-- `PrefixOperator::build`: note that unary plus returns its operand
unchanged. -/
def PrefixOperator.build : PrefixOperator → Expression → Expression
  | .Minus, e => .Negate e
  | .Plus, e => e
  | .SquareRoot, e => .SquareRoot e

/-- `PrefixOperator::precedence`. -/
def PrefixOperator.precedence : PrefixOperator → ℕ := fun _ => 5

/-- `PrefixOperator::associativity`. -/
def PrefixOperator.associativity : PrefixOperator → ℕ := fun _ => associatesRight

/-- The infix operators. -/
inductive InfixOperator : Type
  | Add
  | Divide
  | Exponentiate
  | Modulo
  | Multiply
  | Subtract
deriving DecidableEq

/-- `InfixOperator::from_token`. -/
def InfixOperator.fromToken : Token → Option InfixOperator
  | .Plus => some .Add
  | .Minus => some .Subtract
  | .Asterisk => some .Multiply
  | .Slash => some .Divide
  | .Percent => some .Modulo
  | .Caret => some .Exponentiate
  | _ => none

/-- `InfixOperator::build`. -/
def InfixOperator.build : InfixOperator → Expression → Expression → Expression
  | .Add, l, r => .Add l r
  | .Divide, l, r => .Divide l r
  | .Exponentiate, l, r => .Exponentiate l r
  | .Modulo, l, r => .Modulo l r
  | .Multiply, l, r => .Multiply l r
  | .Subtract, l, r => .Subtract l r

/-- `InfixOperator::precedence`. -/
def InfixOperator.precedence : InfixOperator → ℕ
  | .Add | .Subtract => 1
  | .Multiply | .Divide | .Modulo => 2
  | .Exponentiate => 3

/-- `InfixOperator::associativity`. -/
def InfixOperator.associativity : InfixOperator → ℕ
  | .Exponentiate => associatesRight
  | _ => associatesLeft

/-- The postfix operators. -/
inductive PostfixOperator : Type
  | Factorial
deriving DecidableEq

/-- `PostfixOperator::from_token`. -/
def PostfixOperator.fromToken : Token → Option PostfixOperator
  | .Exclamation => some .Factorial
  | _ => none

/-- `PostfixOperator::build`. -/
def PostfixOperator.build : PostfixOperator → Expression → Expression
  | .Factorial, e => .Factorial e

/-- `PostfixOperator::precedence`. -/
def PostfixOperator.precedence : PostfixOperator → ℕ := fun _ => 4

/-- `PostfixOperator::associativity`. -/
def PostfixOperator.associativity : PostfixOperator → ℕ := fun _ => associatesLeft

/-! ## Parser state and precedence climbing (`src/parser.rs`) -/

/-- Parser state: the remaining tokens, and the character on which the lexer
stopped (reported as "Unexpected character" when the parser requests a token
past the scannable prefix), if any. -/
structure PState : Type where
  toks : List Token
  errc : Option Char
deriving DecidableEq

/-- Parser outcome: a value with the remaining state, an error, or fuel
exhaustion (`out`), which `parseGo_not_out` below shows the chosen fuel never
produces. -/
inductive POut (α : Type) : Type
  | ok (a : α) (st : PState)
  | err (msg : String)
  | out
deriving DecidableEq

/-- Sequencing of parser outcomes. -/
def pbind : POut α → (α → PState → POut β) → POut β
  | .ok a st, f => f a st
  | .err m, _ => .err m
  | .out, _ => .out

/-- The error produced by `Parser::next` past the last token: the lexer's
"Unexpected character" if scanning stopped on one, else end of input. -/
def endErr : Option Char → String
  | some c => "Unexpected character " ++ c.toString
  | none => "Unexpected end of input"

/-- `Parser::next_if_operator` (note that a lexer error under the peek is
swallowed into `None`, as `peek().unwrap_or(None)` does in the source). -/
def nextIfOp (f : Token → Option α) (st : PState) : Option (α × PState) :=
  match st.toks with
  | [] => none
  | t :: ts => (f t).map (fun op => (op, ⟨ts, st.errc⟩))

/-- `Parser::next_if`. -/
def nextIfTok (p : Token → Bool) (st : PState) : Option (Token × PState) :=
  match st.toks with
  | [] => none
  | t :: ts => if p t then some (t, ⟨ts, st.errc⟩) else none

/-- Lift a builder result into a parser outcome. -/
def liftE : Except String α → PState → POut α
  | .ok a, st => .ok a st
  | .error m, _ => .err m

mutual

/-- `Parser::parse_expression` (precedence climbing), indexed by fuel. -/
def parseExpression : ℕ → ℕ → PState → POut Expression
  | 0, _, _ => .out
  | fuel + 1, minPrec, st =>
    let lhs0 : POut Expression :=
      match nextIfOp PrefixOperator.fromToken st with
      | some (op, st1) =>
        pbind (parseExpression fuel (op.precedence + op.associativity) st1)
          (fun e st2 => .ok (op.build e) st2)
      | none => parseAtom fuel st
    pbind lhs0 (fun lhs st1 =>
      pbind (postfixLoop fuel minPrec lhs st1) (fun l2 st2 =>
        infixLoop fuel minPrec l2 st2))

/-- `Parser::parse_atom`, indexed by fuel. -/
def parseAtom : ℕ → PState → POut Expression
  | 0, _ => .out
  | fuel + 1, st =>
    match st.toks with
    | [] => .err (endErr st.errc)
    | t :: ts =>
      let st1 : PState := ⟨ts, st.errc⟩
      match t with
      | .Ident n =>
        (match nextIfTok (fun t => t = .OpenParen) st1 with
         | some (_, st2) =>
           pbind (parseArgs fuel [] st2) (fun args st3 => liftE (buildFunction n args) st3)
         | none => liftE (buildConstant n) st1)
      | .Number n => liftE (buildNumber n) st1
      | .OpenParen =>
        pbind (parseExpression fuel 1 st1) (fun e st2 =>
          match nextIfTok (fun t => t = .CloseParen) st2 with
          | some (_, st3) => .ok e st3
          | none => .err "Closing ) not found")
      | other => .err ("Unexpected token " ++ tokenStr other)

/-- The argument-list loop of `Parser::parse_atom`, indexed by fuel. -/
def parseArgs : ℕ → List Expression → PState → POut (List Expression)
  | 0, _, _ => .out
  | fuel + 1, args, st =>
    match nextIfTok (fun t => t = .CloseParen) st with
    | some (_, st1) => .ok args st1
    | none =>
      if args.isEmpty then
        pbind (parseExpression fuel 1 st) (fun e st2 => parseArgs fuel (args ++ [e]) st2)
      else
        match st.toks with
        | [] => .err (endErr st.errc)
        | t :: ts =>
          if t = .Comma then
            pbind (parseExpression fuel 1 ⟨ts, st.errc⟩) (fun e st2 =>
              parseArgs fuel (args ++ [e]) st2)
          else .err ("Unexpected token " ++ tokenStr t)

/-- The postfix-operator loop of `Parser::parse_expression`, indexed by
fuel. -/
def postfixLoop : ℕ → ℕ → Expression → PState → POut Expression
  | 0, _, _, _ => .out
  | fuel + 1, minPrec, lhs, st =>
    match nextIfOp (fun t =>
        (PostfixOperator.fromToken t).filter (fun o => minPrec ≤ o.precedence)) st with
    | some (op, st1) => postfixLoop fuel minPrec (op.build lhs) st1
    | none => .ok lhs st

/-- The infix-operator loop of `Parser::parse_expression`, indexed by fuel. -/
def infixLoop : ℕ → ℕ → Expression → PState → POut Expression
  | 0, _, _, _ => .out
  | fuel + 1, minPrec, lhs, st =>
    match nextIfOp (fun t =>
        (InfixOperator.fromToken t).filter (fun o => minPrec ≤ o.precedence)) st with
    | some (op, st1) =>
      pbind (parseExpression fuel (op.precedence + op.associativity) st1)
        (fun rhs st2 => infixLoop fuel minPrec (op.build lhs rhs) st2)
    | none => .ok lhs st

end

/-- The initializer of the `lhs` variable of `Parser::parse_expression`
(the prefix-operator branch or an atom), named so that unfoldings of
`parseExpression` can be stated once. -/
def lhs0Fn (fuel : ℕ) (st : PState) : POut Expression :=
  match nextIfOp PrefixOperator.fromToken st with
  | some (op, st1) =>
    pbind (parseExpression fuel (op.precedence + op.associativity) st1)
      (fun e st2 => .ok (op.build e) st2)
  | none => parseAtom fuel st

/-- `Parser::parse` on an already-lexed state: one `parse_expression(1)`,
then the token stream must be exhausted. -/
def parseGo (st : PState) : POut Expression :=
  pbind (parseExpression (2 * st.toks.length + 4) 1 st) (fun e st2 =>
    match st2.toks with
    | t :: _ => .err ("Unexpected token " ++ tokenStr t)
    | [] =>
      match st2.errc with
      | some c => .err ("Unexpected character " ++ c.toString)
      | none => .ok e st2)

/-- The public entry point: `Parser::new(input).parse()`. -/
def parseTop (input : String) : POut Expression :=
  match lexChars input.data with
  | none => .out
  | some (ts, ec) => parseGo ⟨ts, ec⟩

/-- Parse-then-evaluate, when parsing succeeds. -/
def evalString (lib : LibM) (input : String) : Option F64 :=
  match parseTop input with
  | .ok e _ => some (evaluate lib e)
  | _ => none

example : parseTop "1 + 2" =
    .ok (.Add (.Number (.fin 1)) (.Number (.fin 2))) ⟨[], none⟩ := by
  with_unfolding_all decide
example : parseTop "" = .err "Unexpected end of input" := by
  with_unfolding_all decide
example : parseTop "1 + 2)" = .err "Unexpected token )" := by
  with_unfolding_all decide
example : parseTop "(1 + 2" = .err "Closing ) not found" := by
  with_unfolding_all decide
example : parseTop "sqrt()" = .err "sqrt() takes 1 args, received 0" := by
  with_unfolding_all decide
example : parseTop "sqrt(1, 2)" = .err "sqrt() takes 1 args, received 2" := by
  with_unfolding_all decide
example : parseTop "foo(1)" = .err "Unknown function foo" := by
  with_unfolding_all decide
example : parseTop "π" = .err "Unknown constant π" := by
  with_unfolding_all decide
example : parseTop "pi" = .ok (.Constant .Pi) ⟨[], none⟩ := by
  with_unfolding_all decide

example (lib : LibM) : evalString lib "-5 % 3" = some (.fin 1) := by
  with_unfolding_all rfl
example (lib : LibM) : evalString lib "5 % -3" = some (.fin (-1)) := by
  with_unfolding_all rfl
example (lib : LibM) : evalString lib "2^3^2" = some (.fin 512) := by
  with_unfolding_all rfl
example (lib : LibM) : evalString lib "7 - 4 + 2" = some (.fin 5) := by
  with_unfolding_all rfl
example (lib : LibM) : evalString lib "2 ^ 3!" = some (.fin 64) := by
  with_unfolding_all rfl
example (lib : LibM) : evalString lib "3.14!" = some .nan := by
  with_unfolding_all rfl
example (lib : LibM) : evalString lib "-1!" = some .nan := by
  with_unfolding_all rfl
example (lib : LibM) : evalString lib "0!" = some (.fin 1) := by
  with_unfolding_all rfl
example (lib : LibM) : evalString lib "inf!" = some (.inf false) := by
  with_unfolding_all rfl
example (lib : LibM) : evalString lib "round(3.14, -1)" = some .nan := by
  with_unfolding_all rfl
example (lib : LibM) :
    evalString lib "round(3.14, 1)" = some (.fin (6980579422424269 / 2 ^ 51)) := by
  with_unfolding_all rfl
example (lib : LibM) : evalString lib "round(3.14, 1)" = evalString lib "3.1" := by
  with_unfolding_all rfl
example : parseTop "√4" = parseTop "sqrt(4)" := by with_unfolding_all decide

/-! ## Lemmas about the binary64 rounding model -/

/-- Correctness of the fuel-driven binary exponentiation. -/
theorem pow2f_spec : ∀ f k, k ≤ f → pow2f f k = 2 ^ k := by
  intro f
  induction f with
  | zero => intro k hk; interval_cases k; rfl
  | succ f ih =>
    intro k hk
    match k with
    | 0 => rfl
    | k + 1 =>
      have h2 : (k + 1) / 2 ≤ f := by omega
      show (if (k + 1) % 2 = 0 then 1 else 2) * pow2f f ((k + 1) / 2) *
          pow2f f ((k + 1) / 2) = 2 ^ (k + 1)
      rw [ih _ h2]
      rcases Nat.even_or_odd (k + 1) with he | ho
      · have hmod : (k + 1) % 2 = 0 := Nat.even_iff.mp he
        have hdiv : (k + 1) / 2 + (k + 1) / 2 = k + 1 := by omega
        rw [if_pos hmod, one_mul, ← pow_add, hdiv]
      · have hmod : (k + 1) % 2 = 1 := Nat.odd_iff.mp ho
        have hdiv : (k + 1) / 2 + (k + 1) / 2 = k := by omega
        rw [if_neg (by omega)]
        have hsq : 2 * 2 ^ ((k + 1) / 2) * 2 ^ ((k + 1) / 2) =
            2 ^ ((k + 1) / 2 + (k + 1) / 2 + 1) := by ring
        rw [hsq, hdiv]

theorem pow2n_eq (k : ℕ) : pow2n k = 2 ^ k := pow2f_spec k k le_rfl

/-- The natural-number power of two cast into the rationals. -/
theorem pow2n_cast_q (k : ℕ) : ((pow2n k : ℕ) : ℚ) = 2 ^ k := by
  rw [pow2n_eq]; push_cast; ring

theorem pow2z_eq (e : ℤ) : pow2z e = (2 : ℚ) ^ e := by
  unfold pow2z
  split
  · next h =>
    rw [pow2n_cast_q, ← zpow_natCast (2 : ℚ) e.toNat, Int.toNat_of_nonneg h]
  · next h =>
    rw [Rat.divInt_eq_div]
    push_cast
    rw [pow2n_eq]
    push_cast
    rw [one_div, ← zpow_natCast (2 : ℚ) (-e).toNat, Int.toNat_of_nonneg (by omega),
      ← zpow_neg, neg_neg]

theorem pow2z_pos (e : ℤ) : 0 < pow2z e := by
  rw [pow2z_eq]; positivity

/-- The distance from `x` to its nearest-even integer is at most `1/2`. -/
theorem rhe_abs_le (x : ℚ) : |(rhe x : ℚ) - x| ≤ 1 / 2 := by
  unfold rhe
  have h0 : (0 : ℚ) ≤ x - ⌊x⌋ := by
    have := Int.floor_le x; linarith
  have h1 : x - ⌊x⌋ < 1 := by
    have := Int.lt_floor_add_one x; linarith
  split
  · next h => rw [abs_le]; constructor <;> linarith
  · next h =>
    split
    · next h2 => rw [abs_le]; push_cast; constructor <;> linarith
    · next h2 =>
      have hf : x - ⌊x⌋ = 1 / 2 := by linarith
      split <;> rw [abs_le] <;> push_cast <;> constructor <;> linarith

theorem rhe_nonneg (x : ℚ) (h : 0 ≤ x) : 0 ≤ rhe x := by
  have hb := rhe_abs_le x
  rw [abs_le] at hb
  have h2 : (-1 : ℚ) < (rhe x : ℚ) := by linarith
  have h3 : (-1 : ℤ) < rhe x := by exact_mod_cast h2
  omega

theorem rhe_nonpos (x : ℚ) (h : x ≤ 0) : rhe x ≤ 0 := by
  have hb := rhe_abs_le x
  rw [abs_le] at hb
  have h2 : (rhe x : ℚ) < 1 := by linarith
  have h3 : rhe x < 1 := by exact_mod_cast h2
  omega

/-- Transport of the base-2-logarithm characterization through one division
step by `2^c`. -/
theorem log2_chunk {c L n : ℕ} (hcn : 2 ^ c ≤ n) (hL1 : 2 ^ L ≤ n / 2 ^ c)
    (hL2 : n / 2 ^ c < 2 ^ (L + 1)) : 2 ^ (L + c) ≤ n ∧ n < 2 ^ (L + c + 1) := by
  have hcpos : 0 < 2 ^ c := Nat.pos_pow_of_pos c (by omega)
  constructor
  · calc 2 ^ (L + c) = 2 ^ L * 2 ^ c := pow_add 2 L c
      _ ≤ n / 2 ^ c * 2 ^ c := Nat.mul_le_mul_right _ hL1
      _ ≤ n := Nat.div_mul_le_self n (2 ^ c)
  · have hdm := Nat.div_add_mod n (2 ^ c)
    have hm : n % 2 ^ c < 2 ^ c := Nat.mod_lt _ hcpos
    calc n = 2 ^ c * (n / 2 ^ c) + n % 2 ^ c := hdm.symm
      _ < 2 ^ c * (n / 2 ^ c) + 2 ^ c := by omega
      _ = 2 ^ c * (n / 2 ^ c + 1) := by ring
      _ ≤ 2 ^ c * 2 ^ (L + 1) := Nat.mul_le_mul_left _ (by omega)
      _ = 2 ^ (L + c + 1) := by rw [← pow_add]; ring_nf

/-- Correctness of the fuel-driven base-2 logarithm. -/
theorem log2f_spec : ∀ f n, 1 ≤ n → n ≤ f → 2 ^ log2f f n ≤ n ∧ n < 2 ^ (log2f f n + 1) := by
  intro f
  induction f with
  | zero => intro n h1 h2; omega
  | succ f ih =>
    intro n h1 h2
    have step : ∀ c : ℕ, 0 < c → pow2n c ≤ n →
        2 ^ (log2f f (n / pow2n c) + c) ≤ n ∧ n < 2 ^ (log2f f (n / pow2n c) + c + 1) := by
      intro c hc hcond
      rw [pow2n_eq] at hcond ⊢
      have hglue : (2 : ℕ) ≤ 2 ^ c := by
        calc (2 : ℕ) = 2 ^ 1 := (pow_one 2).symm
          _ ≤ 2 ^ c := Nat.pow_le_pow_right (by omega) hc
      have hm1 : 1 ≤ n / 2 ^ c := (Nat.one_le_div_iff (by omega)).mpr hcond
      have hm2 : n / 2 ^ c ≤ f := by
        have hhalf : n / 2 ^ c ≤ n / 2 := Nat.div_le_div_left hglue (by omega)
        have : n / 2 ≤ f := by omega
        omega
      obtain ⟨ha, hb⟩ := ih (n / 2 ^ c) hm1 hm2
      exact log2_chunk hcond ha hb
    unfold log2f
    split
    · next h => exact step 256 (by omega) h
    · next h =>
      split
      · next h2 => exact step 64 (by omega) h2
      · next h2 =>
        split
        · next h3 => exact step 16 (by omega) h3
        · next h3 =>
          split
          · next h4 => exact step 4 (by omega) h4
          · next h4 =>
            split
            · next h5 =>
              have h6 : pow2n 1 ≤ n := by
                rw [pow2n_eq]; omega
              have := step 1 (by omega) h6
              have hdiv : n / pow2n 1 = n / 2 := by
                rw [pow2n_eq]; norm_num
              rw [hdiv] at this
              exact this
            · next h5 => simpa using by omega

theorem natLog2_spec (n : ℕ) (h : 1 ≤ n) :
    2 ^ natLog2 n ≤ n ∧ n < 2 ^ (natLog2 n + 1) :=
  log2f_spec n n h le_rfl

/-- A positive rational as the quotient of its (nonnegative) numerator and
denominator, cast through `ℕ`. -/
theorem rat_eq_toNat_div (q : ℚ) (hq : 0 < q) :
    q = ((q.num.toNat : ℕ) : ℚ) / ((q.den : ℕ) : ℚ) := by
  have hnum : 0 < q.num := Rat.num_pos.mpr hq
  have hA : ((q.num.toNat : ℕ) : ℚ) = ((q.num : ℤ) : ℚ) := by
    exact_mod_cast congrArg (fun z : ℤ => (z : ℚ)) (Int.toNat_of_nonneg hnum.le)
  rw [hA]
  exact (Rat.num_div_den q).symm

/-- Upper characterization of `qLog2`: valid for every positive rational. -/
theorem qLog2_lt (q : ℚ) (hq : 0 < q) : q < pow2z (qLog2 q + 1) := by
  set a := q.num.toNat with ha
  set d := q.den with hd
  have hdpos : 0 < d := q.pos
  set s := a * pow2n 1100 / d with hs
  have hub : a * pow2n 1100 < d * (s + 1) := by
    have h1 : d * s + a * pow2n 1100 % d = a * pow2n 1100 := by
      rw [hs]; exact Nat.div_add_mod _ _
    have h2 : a * pow2n 1100 % d < d := Nat.mod_lt _ hdpos
    have h3 : d * (s + 1) = d * s + d := by ring
    rw [h3]
    linarith
  have hslt : s < 2 ^ (natLog2 s + 1) := by
    rcases Nat.eq_zero_or_pos s with h0 | h1
    · simp [h0]
    · exact (natLog2_spec s h1).2
  have hq2 : q * 2 ^ 1100 < ((s : ℚ) + 1) := by
    have hcast : (a : ℚ) * ((pow2n 1100 : ℕ) : ℚ) < (d : ℚ) * ((s : ℚ) + 1) := by
      exact_mod_cast hub
    rw [pow2n_cast_q] at hcast
    rw [rat_eq_toNat_div q hq, ← ha, ← hd]
    rw [div_mul_eq_mul_div, div_lt_iff (by positivity)]
    linarith
  have hs1 : (s : ℚ) + 1 ≤ 2 ^ (natLog2 s + 1) := by exact_mod_cast hslt
  rw [qLog2, pow2z_eq, ← hs]
  have hkey : q < 2 ^ (natLog2 s + 1) / 2 ^ 1100 := by
    rw [lt_div_iff (by positivity)]
    calc q * 2 ^ 1100 < (s : ℚ) + 1 := hq2
      _ ≤ 2 ^ (natLog2 s + 1) := hs1
  have hexp : ((natLog2 s : ℤ) - 1100 + 1) = ((natLog2 s + 1 : ℕ) : ℤ) - ((1100 : ℕ) : ℤ) := by
    push_cast; ring
  rw [hexp, zpow_sub₀ (two_ne_zero), zpow_natCast, zpow_natCast]
  exact hkey

/-- Lower characterization of `qLog2`: valid as soon as the scaled integer
part is nonzero, in particular whenever `2^-1100 ≤ q`. -/
theorem qLog2_le (q : ℚ) (hq : 0 < q) (hs : 1 ≤ q.num.toNat * pow2n 1100 / q.den) :
    pow2z (qLog2 q) ≤ q := by
  set a := q.num.toNat with ha
  set d := q.den with hd
  have hdpos : 0 < d := q.pos
  set s := a * pow2n 1100 / d with hs2
  have hlb : d * s ≤ a * pow2n 1100 := Nat.mul_div_le (a * pow2n 1100) d
  have hpow : 2 ^ natLog2 s ≤ s := (natLog2_spec s hs).1
  have hq2 : (2 : ℚ) ^ natLog2 s ≤ q * 2 ^ 1100 := by
    have hcast : (d : ℚ) * (s : ℚ) ≤ (a : ℚ) * ((pow2n 1100 : ℕ) : ℚ) := by
      exact_mod_cast hlb
    rw [pow2n_cast_q] at hcast
    have hsq : (2 : ℚ) ^ natLog2 s ≤ (s : ℚ) := by exact_mod_cast hpow
    have hd1 : (1 : ℚ) ≤ (d : ℚ) := by exact_mod_cast hdpos
    rw [rat_eq_toNat_div q hq, ← ha, ← hd]
    rw [div_mul_eq_mul_div, le_div_iff (by positivity)]
    calc (2 : ℚ) ^ natLog2 s * d ≤ (s : ℚ) * d := by
          apply mul_le_mul_of_nonneg_right hsq (by positivity)
      _ = (d : ℚ) * (s : ℚ) := by ring
      _ ≤ (a : ℚ) * 2 ^ 1100 := hcast
  rw [qLog2, pow2z_eq, ← hs2]
  have hexp : ((natLog2 s : ℤ) - 1100) = ((natLog2 s : ℕ) : ℤ) - ((1100 : ℕ) : ℤ) := by
    push_cast; ring
  rw [hexp, zpow_sub₀ (two_ne_zero), zpow_natCast, zpow_natCast,
    div_le_iff (by positivity)]
  exact hq2

theorem pow2z_mono {a b : ℤ} (h : a ≤ b) : pow2z a ≤ pow2z b := by
  rw [pow2z_eq, pow2z_eq]
  exact zpow_le_of_le one_le_two h

theorem pow2z_add (a b : ℤ) : pow2z (a + b) = pow2z a * pow2z b := by
  rw [pow2z_eq, pow2z_eq, pow2z_eq, zpow_add₀ (two_ne_zero)]

/-- Lower characterization of `qLog2` from a magnitude hypothesis. -/
theorem qLog2_le_of_ge (q : ℚ) (h : pow2z (-1100) ≤ q) : pow2z (qLog2 q) ≤ q := by
  have hq : 0 < q := lt_of_lt_of_le (pow2z_pos _) h
  apply qLog2_le q hq
  rw [Nat.one_le_div_iff q.pos]
  have hq2 : (q.den : ℚ) ≤ (q.num.toNat : ℚ) * ((pow2n 1100 : ℕ) : ℚ) := by
    rw [pow2n_cast_q]
    have hrw := rat_eq_toNat_div q hq
    have hppos : (0 : ℚ) < (q.den : ℚ) := by exact_mod_cast q.pos
    have hqd : q * (q.den : ℚ) = (q.num.toNat : ℚ) := by
      calc q * (q.den : ℚ)
          = ((q.num.toNat : ℚ) / (q.den : ℚ)) * (q.den : ℚ) := by rw [← hrw]
        _ = (q.num.toNat : ℚ) := div_mul_cancel₀ _ (ne_of_gt hppos)
    have h2 : pow2z (-1100) * q.den ≤ q.num.toNat := by
      calc pow2z (-1100) * (q.den : ℚ) ≤ q * (q.den : ℚ) :=
            mul_le_mul_of_nonneg_right h hppos.le
        _ = (q.num.toNat : ℚ) := hqd
    have h3 : pow2z (-1100) * (2 : ℚ) ^ (1100 : ℕ) = 1 := by
      rw [pow2z_eq, ← zpow_natCast (2 : ℚ) 1100, ← zpow_add₀ (two_ne_zero)]
      norm_num
    calc (q.den : ℚ) = pow2z (-1100) * (q.den : ℚ) * 2 ^ 1100 := by
          rw [mul_comm (pow2z (-1100)), mul_assoc, h3, mul_one]
      _ ≤ (q.num.toNat : ℚ) * 2 ^ 1100 := by
          apply mul_le_mul_of_nonneg_right h2 (by positivity)
  exact_mod_cast hq2

/-- `natLog2` of `0` and `1` is `0` (so a positive `natLog2` forces `s ≥ 2`). -/
theorem natLog2_pos_imp (s : ℕ) (h : 0 < natLog2 s) : 1 ≤ s := by
  by_contra hc
  interval_cases s <;> simp_all [natLog2, log2f]

/-- The unit in the last place is at most `max (magnitude·2⁻⁵², 2⁻¹⁰⁷⁴)`. -/
theorem ulpExp_le (q : ℚ) (hq : 0 < q) :
    pow2z (ulpExp q) ≤ max (q * pow2z (-52)) (pow2z (-1074)) := by
  unfold ulpExp
  rcases le_or_lt (qLog2 q - 52) (-1074) with h | h
  · rw [max_eq_right h]
    exact le_max_of_le_right le_rfl
  · rw [max_eq_left h.le]
    apply le_max_of_le_left
    have hs : 1 ≤ q.num.toNat * pow2n 1100 / q.den := by
      apply natLog2_pos_imp
      have : (-1022 : ℤ) < qLog2 q := by omega
      rw [qLog2] at this
      omega
    have hlow := qLog2_le q hq hs
    have hsplit : pow2z (qLog2 q - 52) = pow2z (qLog2 q) * pow2z (-52) := by
      rw [← pow2z_add, sub_eq_add_neg]
    rw [hsplit]
    exact mul_le_mul_of_nonneg_right hlow (pow2z_pos _).le

/-- The overflow threshold is positive. -/
theorem hugeQ_pos : (0 : ℚ) < hugeQ := by
  unfold hugeQ
  rw [pow2n_cast_q]
  positivity

/-- Half-ulp error bound of the binary64 rounding. -/
theorem rndQ_abs_sub_le (q : ℚ) : |rndQ q - q| ≤ pow2z (ulpExp |q|) / 2 := by
  unfold rndQ
  split
  · next h =>
    subst h
    rw [sub_self, abs_zero]
    have hp := pow2z_pos (ulpExp (0 : ℚ))
    have hp2 := pow2z_pos (ulpExp |(0 : ℚ)|)
    linarith
  · next h =>
    have hu : (0 : ℚ) < pow2z (ulpExp |q|) := pow2z_pos _
    have hune : pow2z (ulpExp |q|) ≠ 0 := ne_of_gt hu
    have key : (rhe (q / pow2z (ulpExp |q|)) : ℚ) * pow2z (ulpExp |q|) - q =
        ((rhe (q / pow2z (ulpExp |q|)) : ℚ) - q / pow2z (ulpExp |q|)) *
          pow2z (ulpExp |q|) := by
      rw [sub_mul, div_mul_cancel₀ _ hune]
    rw [key, abs_mul, abs_of_pos hu]
    calc |(rhe (q / pow2z (ulpExp |q|)) : ℚ) - q / pow2z (ulpExp |q|)| *
          pow2z (ulpExp |q|)
        ≤ 1 / 2 * pow2z (ulpExp |q|) :=
          mul_le_mul_of_nonneg_right (rhe_abs_le _) hu.le
      _ = pow2z (ulpExp |q|) / 2 := by ring

theorem rndQ_nonneg (q : ℚ) (h : 0 ≤ q) : 0 ≤ rndQ q := by
  unfold rndQ
  split
  · exact le_rfl
  · next hne =>
    have hu : (0 : ℚ) < pow2z (ulpExp |q|) := pow2z_pos _
    have h1 : 0 ≤ rhe (q / pow2z (ulpExp |q|)) := rhe_nonneg _ (div_nonneg h hu.le)
    have h2 : (0 : ℚ) ≤ (rhe (q / pow2z (ulpExp |q|)) : ℚ) := by exact_mod_cast h1
    exact mul_nonneg h2 hu.le

theorem rndQ_nonpos (q : ℚ) (h : q ≤ 0) : rndQ q ≤ 0 := by
  unfold rndQ
  split
  · exact le_rfl
  · next hne =>
    have hu : (0 : ℚ) < pow2z (ulpExp |q|) := pow2z_pos _
    have h1 : rhe (q / pow2z (ulpExp |q|)) ≤ 0 :=
      rhe_nonpos _ (div_nonpos_of_nonpos_of_nonneg h hu.le)
    have h2 : ((rhe (q / pow2z (ulpExp |q|)) : ℚ)) ≤ 0 := by exact_mod_cast h1
    exact mul_nonpos_of_nonpos_of_nonneg h2 hu.le

/-- Below-overflow inputs stay below the overflow threshold after rounding. -/
theorem rndQ_abs_lt_huge (q : ℚ) (h : |q| ≤ maxQ) : |rndQ q| < hugeQ := by
  rcases eq_or_ne q 0 with h0 | h0
  · subst h0
    have hz : rndQ 0 = 0 := by unfold rndQ; simp
    rw [hz, abs_zero]
    exact hugeQ_pos
  · have habs : 0 < |q| := abs_pos.mpr h0
    have herr := rndQ_abs_sub_le q
    have hulp : pow2z (ulpExp |q|) ≤ pow2z 971 := by
      apply pow2z_mono
      unfold ulpExp
      rcases le_or_lt (qLog2 |q| - 52) (-1074) with hc | hc
      · omega
      · have hle : qLog2 |q| ≤ 1023 := by
          by_contra hgt
          push_neg at hgt
          have hs : 1 ≤ |q|.num.toNat * pow2n 1100 / |q|.den := by
            apply natLog2_pos_imp
            rw [qLog2] at hgt
            omega
          have hlow := qLog2_le |q| habs hs
          have h1024 : pow2z 1024 ≤ pow2z (qLog2 |q|) := pow2z_mono (by omega)
          have : pow2z 1024 ≤ maxQ := le_trans (le_trans h1024 hlow) h
          have hnum : ¬ pow2z 1024 ≤ maxQ := by with_unfolding_all decide
          exact hnum this
        omega
    have hfin : pow2z 971 / 2 + maxQ < hugeQ := by with_unfolding_all decide
    calc |rndQ q| ≤ |rndQ q - q| + |q| := by
          have := abs_sub_abs_le_abs_sub (rndQ q) q
          have h2 := abs_abs_sub_abs_le_abs_sub (rndQ q) q
          calc |rndQ q| = |rndQ q - q + q| := by ring_nf
            _ ≤ |rndQ q - q| + |q| := abs_add _ _
      _ ≤ pow2z (ulpExp |q|) / 2 + maxQ := by
          apply add_le_add _ h
          exact herr
      _ ≤ pow2z 971 / 2 + maxQ := by linarith
      _ < hugeQ := hfin

/-- For inputs of magnitude at most `f64::MAX`, `f64ofRat` returns the finite
rounded value. -/
theorem f64ofRat_fin (q : ℚ) (h : |q| ≤ maxQ) : f64ofRat q = .fin (rndQ q) := by
  have hlt := rndQ_abs_lt_huge q h
  rw [abs_lt] at hlt
  unfold f64ofRat
  rw [if_neg (by linarith), if_neg (by linarith)]

/-- Rounding a rational that is at least one yields a positive value. -/
theorem rndQ_pos_of_one_le (q : ℚ) (h : 1 ≤ q) : 0 < rndQ q := by
  have hq : 0 < q := lt_of_lt_of_le one_pos h
  have herr := rndQ_abs_sub_le q
  rw [abs_of_pos hq] at herr
  have hulp := ulpExp_le q hq
  have h52 : pow2z (-52) ≤ 1 / 2 := by with_unfolding_all decide
  have h1074 : pow2z (-1074) ≤ 1 / 2 := by with_unfolding_all decide
  have hmax : max (q * pow2z (-52)) (pow2z (-1074)) ≤ q / 2 := by
    apply max_le
    · have step : q * pow2z (-52) ≤ q * (1 / 2) :=
        mul_le_mul_of_nonneg_left h52 hq.le
      linarith
    · linarith
  rw [abs_le] at herr
  have : q - q / 4 ≤ rndQ q := by
    have h1 : -(pow2z (ulpExp q) / 2) ≤ rndQ q - q := herr.1
    have h2 : pow2z (ulpExp q) ≤ q / 2 := le_trans hulp hmax
    linarith
  linarith

/-- `f64ofRat` on an input at least one gives `+∞` or a positive finite
value. -/
theorem f64ofRat_one_le (q : ℚ) (h : 1 ≤ q) :
    f64ofRat q = .inf false ∨ ∃ r : ℚ, f64ofRat q = .fin r ∧ 0 < r := by
  have hpos := rndQ_pos_of_one_le q h
  unfold f64ofRat
  rcases le_or_lt hugeQ (rndQ q) with hc | hc
  · left; rw [if_pos hc]
  · right
    refine ⟨rndQ q, ?_, hpos⟩
    have hh : (0 : ℚ) < hugeQ := hugeQ_pos
    rw [if_neg (not_le.mpr hc), if_neg (by linarith)]

/-! ## Lemmas about truncation and the factorial fold -/

theorem ratTrunc_intCast (n : ℤ) : ratTrunc ((n : ℤ) : ℚ) = n := by
  unfold ratTrunc
  split <;> simp

theorem ratTrunc_nonneg (q : ℚ) (h : 0 ≤ q) : 0 ≤ ratTrunc q := by
  unfold ratTrunc
  rw [if_pos h]
  exact_mod_cast Int.floor_nonneg.mpr h

/-- A rational equals its truncation exactly when it is integral. -/
theorem ratTrunc_cast_eq_iff (q : ℚ) : ((ratTrunc q : ℤ) : ℚ) = q ↔ q.den = 1 := by
  constructor
  · intro h
    rw [← h]
    exact Rat.den_intCast _
  · intro h
    have hq : ((q.num : ℤ) : ℚ) = q := by
      rw [← Rat.num_div_den q, h]
      norm_num
    rw [← hq, ratTrunc_intCast]

/-- Past `171!` the factorial fold sticks at `+∞`. -/
theorem foldFactN_inf : ∀ n, 171 ≤ n → foldFactN n = .inf false := by
  intro n
  induction n with
  | zero => omega
  | succ n ih =>
    intro h
    rcases Nat.lt_or_ge n 171 with hlt | hge
    · have h171 : n + 1 = 171 := by omega
      rw [h171]
      with_unfolding_all decide
    · have hn := ih hge
      show F64.mul (foldFactN n) (f64ofRat ((n : ℚ) + 1)) = .inf false
      rw [hn]
      have h1 : (1 : ℚ) ≤ (n : ℚ) + 1 := by
        have : (0 : ℚ) ≤ (n : ℚ) := Nat.cast_nonneg n
        linarith
      rcases f64ofRat_one_le _ h1 with hc | ⟨r, hr, hrpos⟩
      · rw [hc]; rfl
      · rw [hr]
        show F64.mul (.inf false) (.fin r) = .inf false
        rw [F64.mul]
        rw [if_neg (ne_of_gt hrpos)]
        simp [not_lt.mpr hrpos.le]

theorem foldFact_inf (k : ℤ) (h : 171 ≤ k) : foldFact k = .inf false :=
  foldFactN_inf k.toNat (by omega)

/-! ## Parser meta-theory: consumption, totality and fuel stability -/

theorem pbind_ok_id {α : Type} (x : POut α) : pbind x (fun a st => .ok a st) = x := by
  cases x <;> rfl

theorem liftE_ne_out {α : Type} (r : Except String α) (st : PState) :
    liftE r st ≠ .out := by
  cases r <;> simp [liftE]

theorem liftE_eq_ok {α : Type} {r : Except String α} {st : PState} {a : α}
    {st2 : PState} (h : liftE r st = .ok a st2) : st2 = st := by
  cases r with
  | ok b =>
    simp only [liftE] at h
    injection h with h1 h2
    exact h2.symm
  | error m => simp [liftE] at h

theorem nextIfOp_eq_some {α : Type} {f : Token → Option α} {st : PState} {op : α}
    {st1 : PState} (h : nextIfOp f st = some (op, st1)) :
    ∃ t ts, st.toks = t :: ts ∧ f t = some op ∧ st1 = ⟨ts, st.errc⟩ := by
  obtain ⟨toks, ec⟩ := st
  cases toks with
  | nil => simp [nextIfOp] at h
  | cons t ts =>
    cases hft : f t with
    | none => simp [nextIfOp, hft] at h
    | some op2 =>
      simp only [nextIfOp, hft, Option.map_some'] at h
      injection h with h1
      injection h1 with ha hb
      exact ⟨t, ts, rfl, by rw [hft, ha], hb.symm⟩

theorem nextIfTok_eq_some {p : Token → Bool} {st : PState} {t0 : Token}
    {st1 : PState} (h : nextIfTok p st = some (t0, st1)) :
    ∃ t ts, st.toks = t :: ts ∧ p t = true ∧ t0 = t ∧ st1 = ⟨ts, st.errc⟩ := by
  obtain ⟨toks, ec⟩ := st
  cases toks with
  | nil => simp [nextIfTok] at h
  | cons t ts =>
    by_cases hpt : p t
    · simp only [nextIfTok, hpt, if_true] at h
      injection h with h1
      injection h1 with ha hb
      exact ⟨t, ts, rfl, hpt, ha.symm, hb.symm⟩
    · simp [nextIfTok, hpt] at h

/-- One unfolding of `parseExpression` in terms of the named `lhs`
initializer. -/
theorem parseExpression_succ (fuel minPrec : ℕ) (st : PState) :
    parseExpression (fuel + 1) minPrec st =
      pbind (lhs0Fn fuel st) (fun lhs st1 =>
        pbind (postfixLoop fuel minPrec lhs st1)
          (fun l2 st2 => infixLoop fuel minPrec l2 st2)) := rfl

theorem lhs0Fn_eq_some {fuel : ℕ} {st : PState} {op : PrefixOperator} {st1 : PState}
    (h : nextIfOp PrefixOperator.fromToken st = some (op, st1)) :
    lhs0Fn fuel st =
      pbind (parseExpression fuel (op.precedence + op.associativity) st1)
        (fun e st2 => .ok (op.build e) st2) := by
  unfold lhs0Fn
  rw [h]

theorem lhs0Fn_eq_none {fuel : ℕ} {st : PState}
    (h : nextIfOp PrefixOperator.fromToken st = none) :
    lhs0Fn fuel st = parseAtom fuel st := by
  unfold lhs0Fn
  rw [h]

/-- Every `ok` outcome of the mutual parser functions consumes tokens:
strictly for expressions, atoms and argument lists, weakly for the two
operator loops. -/
theorem parseConsume : ∀ fuel : ℕ,
    (∀ minPrec st e st2, parseExpression fuel minPrec st = .ok e st2 →
      st2.toks.length < st.toks.length) ∧
    (∀ st e st2, parseAtom fuel st = .ok e st2 → st2.toks.length < st.toks.length) ∧
    (∀ args st as2 st2, parseArgs fuel args st = .ok as2 st2 →
      st2.toks.length < st.toks.length) ∧
    (∀ minPrec lhs st e st2, postfixLoop fuel minPrec lhs st = .ok e st2 →
      st2.toks.length ≤ st.toks.length) ∧
    (∀ minPrec lhs st e st2, infixLoop fuel minPrec lhs st = .ok e st2 →
      st2.toks.length ≤ st.toks.length) := by
  intro fuel
  induction fuel with
  | zero =>
    refine ⟨?_, ?_, ?_, ?_, ?_⟩
    · intro minPrec st e st2 h
      simp [parseExpression] at h
    · intro st e st2 h
      simp [parseAtom] at h
    · intro args st as2 st2 h
      simp [parseArgs] at h
    · intro minPrec lhs st e st2 h
      simp [postfixLoop] at h
    · intro minPrec lhs st e st2 h
      simp [infixLoop] at h
  | succ f ih =>
    obtain ⟨ihE, ihA, ihG, ihP, ihI⟩ := ih
    refine ⟨?_, ?_, ?_, ?_, ?_⟩
    · -- parseExpression
      intro minPrec st e st2 h
      rw [parseExpression_succ] at h
      cases hpre : nextIfOp PrefixOperator.fromToken st with
      | some p =>
        obtain ⟨op, st1⟩ := p
        rw [lhs0Fn_eq_some hpre] at h
        obtain ⟨t, ts, htoks, -, hst1⟩ := nextIfOp_eq_some hpre
        cases hx : parseExpression f (op.precedence + op.associativity) st1 with
        | ok e1 st1x =>
          rw [hx] at h
          simp only [pbind] at h
          cases hp : postfixLoop f minPrec (op.build e1) st1x with
          | ok e2 st2x =>
            rw [hp] at h
            simp only [pbind] at h
            have c1 := ihE _ _ _ _ hx
            have c2 := ihP _ _ _ _ _ hp
            have c3 := ihI _ _ _ _ _ h
            rw [hst1] at c1
            rw [htoks]
            simp only [List.length_cons] at c1 ⊢
            omega
          | err m =>
            rw [hp] at h
            simp [pbind] at h
          | out =>
            rw [hp] at h
            simp [pbind] at h
        | err m =>
          rw [hx] at h
          simp [pbind] at h
        | out =>
          rw [hx] at h
          simp [pbind] at h
      | none =>
        rw [lhs0Fn_eq_none hpre] at h
        cases ha : parseAtom f st with
        | ok e1 st1x =>
          rw [ha] at h
          simp only [pbind] at h
          cases hp : postfixLoop f minPrec e1 st1x with
          | ok e2 st2x =>
            rw [hp] at h
            simp only [pbind] at h
            have c1 := ihA _ _ _ ha
            have c2 := ihP _ _ _ _ _ hp
            have c3 := ihI _ _ _ _ _ h
            omega
          | err m =>
            rw [hp] at h
            simp [pbind] at h
          | out =>
            rw [hp] at h
            simp [pbind] at h
        | err m =>
          rw [ha] at h
          simp [pbind] at h
        | out =>
          rw [ha] at h
          simp [pbind] at h
    · -- parseAtom
      intro st e st2 h
      obtain ⟨toks, ec⟩ := st
      cases toks with
      | nil => simp [parseAtom] at h
      | cons t ts =>
        cases t with
        | Ident n =>
          simp only [parseAtom] at h
          cases hnt : nextIfTok (fun t => t = Token.OpenParen) (⟨ts, ec⟩ : PState) with
          | some q =>
            obtain ⟨t0, st2x⟩ := q
            simp only [hnt] at h
            obtain ⟨u, us, hus, -, -, hst2x⟩ := nextIfTok_eq_some hnt
            cases hg : parseArgs f [] st2x with
            | ok as2 st3x =>
              rw [hg] at h
              simp only [pbind] at h
              have c1 := ihG _ _ _ _ hg
              have c2 := liftE_eq_ok h
              have hts : ts = u :: us := hus
              have hlen : st2x.toks.length = us.length := by rw [hst2x]
              rw [c2]
              show st3x.toks.length < (Token.Ident n :: ts).length
              rw [hts]
              simp only [List.length_cons]
              omega
            | err m =>
              rw [hg] at h
              simp [pbind] at h
            | out =>
              rw [hg] at h
              simp [pbind] at h
          | none =>
            simp only [hnt] at h
            have c2 := liftE_eq_ok h
            rw [c2]
            simp
        | Number n =>
          simp only [parseAtom] at h
          have c2 := liftE_eq_ok h
          rw [c2]
          simp
        | OpenParen =>
          simp only [parseAtom] at h
          cases hx : parseExpression f 1 (⟨ts, ec⟩ : PState) with
          | ok e1 st1x =>
            rw [hx] at h
            simp only [pbind] at h
            cases hnt : nextIfTok (fun t => t = Token.CloseParen) st1x with
            | some q =>
              obtain ⟨t0, st3x⟩ := q
              simp only [hnt] at h
              obtain ⟨u, us, hus, -, -, hst3x⟩ := nextIfTok_eq_some hnt
              injection h with h1 h2
              have c1 := ihE _ _ _ _ hx
              rw [← h2, hst3x]
              simp only [hus, List.length_cons] at c1 ⊢
              omega
            | none => simp [hnt] at h
          | err m =>
            rw [hx] at h
            simp [pbind] at h
          | out =>
            rw [hx] at h
            simp [pbind] at h
        | Plus => simp [parseAtom] at h
        | Minus => simp [parseAtom] at h
        | Asterisk => simp [parseAtom] at h
        | Slash => simp [parseAtom] at h
        | Caret => simp [parseAtom] at h
        | SquareRoot => simp [parseAtom] at h
        | Percent => simp [parseAtom] at h
        | Exclamation => simp [parseAtom] at h
        | CloseParen => simp [parseAtom] at h
        | Comma => simp [parseAtom] at h
    · -- parseArgs
      intro args st as2 st2 h
      simp only [parseArgs] at h
      cases hnt : nextIfTok (fun t => t = Token.CloseParen) st with
      | some q =>
        obtain ⟨t0, st1x⟩ := q
        simp only [hnt] at h
        obtain ⟨u, us, hus, -, -, hst1x⟩ := nextIfTok_eq_some hnt
        injection h with h1 h2
        rw [← h2, hst1x, hus]
        simp
      | none =>
        simp only [hnt] at h
        by_cases hem : args.isEmpty
        · simp only [hem, if_true] at h
          cases hx : parseExpression f 1 st with
          | ok e1 st1x =>
            rw [hx] at h
            simp only [pbind] at h
            have c1 := ihE _ _ _ _ hx
            have c2 := ihG _ _ _ _ h
            omega
          | err m =>
            rw [hx] at h
            simp [pbind] at h
          | out =>
            rw [hx] at h
            simp [pbind] at h
        · simp only [hem, if_false, Bool.false_eq_true] at h
          obtain ⟨toks, ec⟩ := st
          cases toks with
          | nil => simp at h
          | cons t ts =>
            simp only at h
            by_cases hcm : t = Token.Comma
            · simp only [hcm, if_pos rfl] at h
              cases hx : parseExpression f 1 (⟨ts, ec⟩ : PState) with
              | ok e1 st1x =>
                rw [hx] at h
                simp only [pbind] at h
                have c1 := ihE _ _ _ _ hx
                have c2 := ihG _ _ _ _ h
                simp only [List.length_cons] at c1 ⊢
                omega
              | err m =>
                rw [hx] at h
                simp [pbind] at h
              | out =>
                rw [hx] at h
                simp [pbind] at h
            · simp [hcm] at h
    · -- postfixLoop
      intro minPrec lhs st e st2 h
      simp only [postfixLoop] at h
      cases hop : nextIfOp (fun t =>
          (PostfixOperator.fromToken t).filter
            (fun o => minPrec ≤ o.precedence)) st with
      | some p =>
        obtain ⟨op, st1⟩ := p
        simp only [hop] at h
        obtain ⟨t, ts, htoks, -, hst1⟩ := nextIfOp_eq_some hop
        have c1 := ihP _ _ _ _ _ h
        rw [hst1] at c1
        rw [htoks]
        simp only [List.length_cons] at c1 ⊢
        omega
      | none =>
        simp only [hop] at h
        injection h with h1 h2
        rw [← h2]
    · -- infixLoop
      intro minPrec lhs st e st2 h
      simp only [infixLoop] at h
      cases hop : nextIfOp (fun t =>
          (InfixOperator.fromToken t).filter
            (fun o => minPrec ≤ o.precedence)) st with
      | some p =>
        obtain ⟨op, st1⟩ := p
        simp only [hop] at h
        obtain ⟨t, ts, htoks, -, hst1⟩ := nextIfOp_eq_some hop
        cases hx : parseExpression f (op.precedence + op.associativity) st1 with
        | ok e1 st1x =>
          rw [hx] at h
          simp only [pbind] at h
          have c1 := ihE _ _ _ _ hx
          have c2 := ihI _ _ _ _ _ h
          rw [hst1] at c1
          rw [htoks]
          simp only [List.length_cons] at c1 ⊢
          omega
        | err m =>
          rw [hx] at h
          simp [pbind] at h
        | out =>
          rw [hx] at h
          simp [pbind] at h
      | none =>
        simp only [hop] at h
        injection h with h1 h2
        rw [← h2]

/-- The mutual parser functions never exhaust their fuel when it dominates
twice the remaining token count (by the margins below). -/
theorem parseNoOut : ∀ fuel : ℕ,
    (∀ minPrec st, 2 * st.toks.length + 2 ≤ fuel →
      parseExpression fuel minPrec st ≠ .out) ∧
    (∀ st, 2 * st.toks.length + 1 ≤ fuel → parseAtom fuel st ≠ .out) ∧
    (∀ args st, 2 * st.toks.length + 3 ≤ fuel → parseArgs fuel args st ≠ .out) ∧
    (∀ minPrec lhs st, st.toks.length + 1 ≤ fuel →
      postfixLoop fuel minPrec lhs st ≠ .out) ∧
    (∀ minPrec lhs st, 2 * st.toks.length + 1 ≤ fuel →
      infixLoop fuel minPrec lhs st ≠ .out) := by
  intro fuel
  induction fuel with
  | zero =>
    refine ⟨?_, ?_, ?_, ?_, ?_⟩
    · intro minPrec st hb
      omega
    · intro st hb
      omega
    · intro args st hb
      omega
    · intro minPrec lhs st hb
      omega
    · intro minPrec lhs st hb
      omega
  | succ f ih =>
    obtain ⟨ihE, ihA, ihG, ihP, ihI⟩ := ih
    obtain ⟨cE, cA, cG, cP, cI⟩ := parseConsume f
    refine ⟨?_, ?_, ?_, ?_, ?_⟩
    · -- parseExpression
      intro minPrec st hb h
      rw [parseExpression_succ] at h
      cases hpre : nextIfOp PrefixOperator.fromToken st with
      | some p =>
        obtain ⟨op, st1⟩ := p
        rw [lhs0Fn_eq_some hpre] at h
        obtain ⟨t, ts, htoks, -, hst1⟩ := nextIfOp_eq_some hpre
        have hL : st.toks.length = ts.length + 1 := by
          rw [htoks]
          rfl
        have hL1 : st1.toks.length = ts.length := by
          rw [hst1]
        cases hx : parseExpression f (op.precedence + op.associativity) st1 with
        | ok e1 st1x =>
          rw [hx] at h
          simp only [pbind] at h
          have hc1 := cE _ _ _ _ hx
          cases hp : postfixLoop f minPrec (op.build e1) st1x with
          | ok e2 st2x =>
            rw [hp] at h
            simp only [pbind] at h
            have hc2 := cP _ _ _ _ _ hp
            exact ihI _ _ _ (by omega) h
          | err m =>
            rw [hp] at h
            simp [pbind] at h
          | out =>
            exact ihP _ _ _ (by omega) hp
        | err m =>
          rw [hx] at h
          simp [pbind] at h
        | out =>
          exact ihE _ _ (by omega) hx
      | none =>
        rw [lhs0Fn_eq_none hpre] at h
        cases ha : parseAtom f st with
        | ok e1 st1x =>
          rw [ha] at h
          simp only [pbind] at h
          have hc1 := cA _ _ _ ha
          cases hp : postfixLoop f minPrec e1 st1x with
          | ok e2 st2x =>
            rw [hp] at h
            simp only [pbind] at h
            have hc2 := cP _ _ _ _ _ hp
            exact ihI _ _ _ (by omega) h
          | err m =>
            rw [hp] at h
            simp [pbind] at h
          | out =>
            exact ihP _ _ _ (by omega) hp
        | err m =>
          rw [ha] at h
          simp [pbind] at h
        | out =>
          exact ihA _ (by omega) ha
    · -- parseAtom
      intro st hb h
      obtain ⟨toks, ec⟩ := st
      simp only [List.length_cons] at hb
      cases toks with
      | nil => simp [parseAtom] at h
      | cons t ts =>
        simp only [List.length_cons] at hb
        cases t with
        | Ident n =>
          simp only [parseAtom] at h
          cases hnt : nextIfTok (fun t => t = Token.OpenParen) (⟨ts, ec⟩ : PState) with
          | some q =>
            obtain ⟨t0, st2x⟩ := q
            simp only [hnt] at h
            obtain ⟨u, us, hus, -, -, hst2x⟩ := nextIfTok_eq_some hnt
            have hts : ts = u :: us := hus
            have hlen : st2x.toks.length = us.length := by rw [hst2x]
            cases hg : parseArgs f [] st2x with
            | ok as2 st3x =>
              rw [hg] at h
              simp only [pbind] at h
              exact liftE_ne_out _ _ h
            | err m =>
              rw [hg] at h
              simp [pbind] at h
            | out =>
              refine ihG _ _ ?_ hg
              rw [hlen]
              have hts2 : ts.length = us.length + 1 := by
                rw [hts]
                rfl
              omega
          | none =>
            simp only [hnt] at h
            exact liftE_ne_out _ _ h
        | Number n =>
          simp only [parseAtom] at h
          exact liftE_ne_out _ _ h
        | OpenParen =>
          simp only [parseAtom] at h
          cases hx : parseExpression f 1 (⟨ts, ec⟩ : PState) with
          | ok e1 st1x =>
            rw [hx] at h
            simp only [pbind] at h
            cases hnt : nextIfTok (fun t => t = Token.CloseParen) st1x with
            | some q =>
              obtain ⟨t0, st3x⟩ := q
              simp only [hnt] at h
              simp at h
            | none => simp [hnt] at h
          | err m =>
            rw [hx] at h
            simp [pbind] at h
          | out =>
            refine ihE _ _ ?_ hx
            simp only [PState.toks]
            omega
        | Plus => simp [parseAtom] at h
        | Minus => simp [parseAtom] at h
        | Asterisk => simp [parseAtom] at h
        | Slash => simp [parseAtom] at h
        | Caret => simp [parseAtom] at h
        | SquareRoot => simp [parseAtom] at h
        | Percent => simp [parseAtom] at h
        | Exclamation => simp [parseAtom] at h
        | CloseParen => simp [parseAtom] at h
        | Comma => simp [parseAtom] at h
    · -- parseArgs
      intro args st hb h
      simp only [parseArgs] at h
      cases hnt : nextIfTok (fun t => t = Token.CloseParen) st with
      | some q =>
        obtain ⟨t0, st1x⟩ := q
        simp only [hnt] at h
        simp at h
      | none =>
        simp only [hnt] at h
        by_cases hem : args.isEmpty
        · simp only [hem, if_true] at h
          cases hx : parseExpression f 1 st with
          | ok e1 st1x =>
            rw [hx] at h
            simp only [pbind] at h
            have hc1 := cE _ _ _ _ hx
            exact ihG _ _ (by omega) h
          | err m =>
            rw [hx] at h
            simp [pbind] at h
          | out =>
            exact ihE _ _ (by omega) hx
        · simp only [hem, if_false, Bool.false_eq_true] at h
          obtain ⟨toks, ec⟩ := st
          cases toks with
          | nil => simp at h
          | cons t ts =>
            simp only [List.length_cons] at hb
            by_cases hcm : t = Token.Comma
            · simp only [hcm, if_pos rfl] at h
              cases hx : parseExpression f 1 (⟨ts, ec⟩ : PState) with
              | ok e1 st1x =>
                rw [hx] at h
                simp only [pbind] at h
                have hc1 := cE _ _ _ _ hx
                simp only [PState.toks] at hc1
                exact ihG _ _ (by omega) h
              | err m =>
                rw [hx] at h
                simp [pbind] at h
              | out =>
                refine ihE _ _ ?_ hx
                simp only [PState.toks]
                omega
            · simp [hcm] at h
    · -- postfixLoop
      intro minPrec lhs st hb h
      simp only [postfixLoop] at h
      cases hop : nextIfOp (fun t =>
          (PostfixOperator.fromToken t).filter
            (fun o => minPrec ≤ o.precedence)) st with
      | some p =>
        obtain ⟨op, st1⟩ := p
        simp only [hop] at h
        obtain ⟨t, ts, htoks, -, hst1⟩ := nextIfOp_eq_some hop
        have hL : st.toks.length = ts.length + 1 := by
          rw [htoks]
          rfl
        have hL1 : st1.toks.length = ts.length := by
          rw [hst1]
        exact ihP _ _ _ (by omega) h
      | none =>
        simp only [hop] at h
        simp at h
    · -- infixLoop
      intro minPrec lhs st hb h
      simp only [infixLoop] at h
      cases hop : nextIfOp (fun t =>
          (InfixOperator.fromToken t).filter
            (fun o => minPrec ≤ o.precedence)) st with
      | some p =>
        obtain ⟨op, st1⟩ := p
        simp only [hop] at h
        obtain ⟨t, ts, htoks, -, hst1⟩ := nextIfOp_eq_some hop
        have hL : st.toks.length = ts.length + 1 := by
          rw [htoks]
          rfl
        have hL1 : st1.toks.length = ts.length := by
          rw [hst1]
        cases hx : parseExpression f (op.precedence + op.associativity) st1 with
        | ok e1 st1x =>
          rw [hx] at h
          simp only [pbind] at h
          have hc1 := cE _ _ _ _ hx
          exact ihI _ _ _ (by omega) h
        | err m =>
          rw [hx] at h
          simp [pbind] at h
        | out =>
          exact ihE _ _ (by omega) hx
      | none =>
        simp only [hop] at h
        simp at h

/-- Fuel stability: above the totality bounds, the result of each parser
function does not depend on the exact fuel. -/
theorem parseStable : ∀ n f1 f2 : ℕ, f1 + f2 ≤ n →
    (∀ minPrec st, 2 * st.toks.length + 2 ≤ f1 → 2 * st.toks.length + 2 ≤ f2 →
      parseExpression f1 minPrec st = parseExpression f2 minPrec st) ∧
    (∀ st, 2 * st.toks.length + 1 ≤ f1 → 2 * st.toks.length + 1 ≤ f2 →
      parseAtom f1 st = parseAtom f2 st) ∧
    (∀ args st, 2 * st.toks.length + 3 ≤ f1 → 2 * st.toks.length + 3 ≤ f2 →
      parseArgs f1 args st = parseArgs f2 args st) ∧
    (∀ minPrec lhs st, st.toks.length + 1 ≤ f1 → st.toks.length + 1 ≤ f2 →
      postfixLoop f1 minPrec lhs st = postfixLoop f2 minPrec lhs st) ∧
    (∀ minPrec lhs st, 2 * st.toks.length + 1 ≤ f1 → 2 * st.toks.length + 1 ≤ f2 →
      infixLoop f1 minPrec lhs st = infixLoop f2 minPrec lhs st) := by
  intro n
  induction n with
  | zero =>
    intro f1 f2 hn
    refine ⟨fun _ st hb1 _ => absurd hb1 (by omega),
      fun st hb1 _ => absurd hb1 (by omega),
      fun _ st hb1 _ => absurd hb1 (by omega),
      fun _ _ st hb1 _ => absurd hb1 (by omega),
      fun _ _ st hb1 _ => absurd hb1 (by omega)⟩
  | succ n ihn =>
    intro f1 f2 hn
    cases f1 with
    | zero =>
      refine ⟨fun _ st hb1 _ => absurd hb1 (by omega),
        fun st hb1 _ => absurd hb1 (by omega),
        fun _ st hb1 _ => absurd hb1 (by omega),
        fun _ _ st hb1 _ => absurd hb1 (by omega),
        fun _ _ st hb1 _ => absurd hb1 (by omega)⟩
    | succ g1 =>
      cases f2 with
      | zero =>
        refine ⟨fun _ st _ hb2 => absurd hb2 (by omega),
          fun st _ hb2 => absurd hb2 (by omega),
          fun _ st _ hb2 => absurd hb2 (by omega),
          fun _ _ st _ hb2 => absurd hb2 (by omega),
          fun _ _ st _ hb2 => absurd hb2 (by omega)⟩
      | succ g2 =>
        obtain ⟨sE, sA, sG, sP, sI⟩ := ihn g1 g2 (by omega)
        obtain ⟨cE, cA, cG, cP, cI⟩ := parseConsume g2
        refine ⟨?_, ?_, ?_, ?_, ?_⟩
        · -- parseExpression
          intro minPrec st hb1 hb2
          rw [parseExpression_succ, parseExpression_succ]
          cases hpre : nextIfOp PrefixOperator.fromToken st with
          | some p =>
            obtain ⟨op, st1⟩ := p
            rw [lhs0Fn_eq_some hpre, lhs0Fn_eq_some hpre]
            obtain ⟨t, ts, htoks, -, hst1⟩ := nextIfOp_eq_some hpre
            have hL : st.toks.length = ts.length + 1 := by
              rw [htoks]
              rfl
            have hL1 : st1.toks.length = ts.length := by
              rw [hst1]
            rw [sE (op.precedence + op.associativity) st1 (by omega) (by omega)]
            cases hx : parseExpression g2 (op.precedence + op.associativity) st1 with
            | ok e1 st1x =>
              simp only [pbind]
              have hc1 := cE _ _ _ _ hx
              rw [sP minPrec (op.build e1) st1x (by omega) (by omega)]
              cases hp : postfixLoop g2 minPrec (op.build e1) st1x with
              | ok e2 st2x =>
                simp only [pbind]
                have hc2 := cP _ _ _ _ _ hp
                exact sI minPrec e2 st2x (by omega) (by omega)
              | err m => rfl
              | out => rfl
            | err m => rfl
            | out => rfl
          | none =>
            rw [lhs0Fn_eq_none hpre, lhs0Fn_eq_none hpre]
            rw [sA st (by omega) (by omega)]
            cases ha : parseAtom g2 st with
            | ok e1 st1x =>
              simp only [pbind]
              have hc1 := cA _ _ _ ha
              rw [sP minPrec e1 st1x (by omega) (by omega)]
              cases hp : postfixLoop g2 minPrec e1 st1x with
              | ok e2 st2x =>
                simp only [pbind]
                have hc2 := cP _ _ _ _ _ hp
                exact sI minPrec e2 st2x (by omega) (by omega)
              | err m => rfl
              | out => rfl
            | err m => rfl
            | out => rfl
        · -- parseAtom
          intro st hb1 hb2
          obtain ⟨toks, ec⟩ := st
          cases toks with
          | nil => rfl
          | cons t ts =>
            have hb1' : 2 * (ts.length + 1) + 1 ≤ g1 + 1 := hb1
            have hb2' : 2 * (ts.length + 1) + 1 ≤ g2 + 1 := hb2
            cases t with
            | Ident n =>
              simp only [parseAtom]
              cases hnt : nextIfTok (fun t => t = Token.OpenParen)
                  (⟨ts, ec⟩ : PState) with
              | some q =>
                obtain ⟨t0, st2x⟩ := q
                show pbind (parseArgs g1 [] st2x)
                    (fun args st3 => liftE (buildFunction n args) st3) =
                  pbind (parseArgs g2 [] st2x)
                    (fun args st3 => liftE (buildFunction n args) st3)
                obtain ⟨u, us, hus, -, -, hst2x⟩ := nextIfTok_eq_some hnt
                have hts : ts = u :: us := hus
                have hts2 : ts.length = us.length + 1 := by
                  rw [hts]
                  rfl
                have hlen : st2x.toks.length = us.length := by rw [hst2x]
                rw [sG [] st2x (by omega) (by omega)]
              | none =>
                show liftE (buildConstant n) (⟨ts, ec⟩ : PState) =
                  liftE (buildConstant n) (⟨ts, ec⟩ : PState)
                rfl
            | Number n => rfl
            | OpenParen =>
              simp only [parseAtom]
              have hf : (⟨ts, ec⟩ : PState).toks.length = ts.length := rfl
              rw [sE 1 (⟨ts, ec⟩ : PState) (by omega) (by omega)]
            | Plus => rfl
            | Minus => rfl
            | Asterisk => rfl
            | Slash => rfl
            | Caret => rfl
            | SquareRoot => rfl
            | Percent => rfl
            | Exclamation => rfl
            | CloseParen => rfl
            | Comma => rfl
        · -- parseArgs
          intro args st hb1 hb2
          obtain ⟨toks, ec⟩ := st
          simp only [parseArgs]
          cases hnt : nextIfTok (fun t => t = Token.CloseParen)
              (⟨toks, ec⟩ : PState) with
          | some q =>
            obtain ⟨t0, st1x⟩ := q
            rfl
          | none =>
            cases args with
            | nil =>
              show pbind (parseExpression g1 1 (⟨toks, ec⟩ : PState))
                  (fun e st2 => parseArgs g1 ([] ++ [e]) st2) =
                pbind (parseExpression g2 1 (⟨toks, ec⟩ : PState))
                  (fun e st2 => parseArgs g2 ([] ++ [e]) st2)
              have hb1' : 2 * toks.length + 3 ≤ g1 + 1 := hb1
              have hb2' : 2 * toks.length + 3 ≤ g2 + 1 := hb2
              have hf : (⟨toks, ec⟩ : PState).toks.length = toks.length := rfl
              rw [sE 1 (⟨toks, ec⟩ : PState) (by omega) (by omega)]
              cases hx : parseExpression g2 1 (⟨toks, ec⟩ : PState) with
              | ok e1 st1x =>
                simp only [pbind]
                have hc1 := cE _ _ _ _ hx
                have hc1' : st1x.toks.length < toks.length := hc1
                exact sG ([] ++ [e1]) st1x (by omega) (by omega)
              | err m => rfl
              | out => rfl
            | cons a as =>
              cases toks with
              | nil => rfl
              | cons t ts =>
                have hb1' : 2 * (ts.length + 1) + 3 ≤ g1 + 1 := hb1
                have hb2' : 2 * (ts.length + 1) + 3 ≤ g2 + 1 := hb2
                cases t with
                | Comma =>
                  show pbind (parseExpression g1 1 (⟨ts, ec⟩ : PState))
                      (fun e st2 => parseArgs g1 ((a :: as) ++ [e]) st2) =
                    pbind (parseExpression g2 1 (⟨ts, ec⟩ : PState))
                      (fun e st2 => parseArgs g2 ((a :: as) ++ [e]) st2)
                  have hf : (⟨ts, ec⟩ : PState).toks.length = ts.length := rfl
                  rw [sE 1 (⟨ts, ec⟩ : PState) (by omega) (by omega)]
                  cases hx : parseExpression g2 1 (⟨ts, ec⟩ : PState) with
                  | ok e1 st1x =>
                    simp only [pbind]
                    have hc1 := cE _ _ _ _ hx
                    have hc1' : st1x.toks.length < ts.length := hc1
                    exact sG ((a :: as) ++ [e1]) st1x (by omega) (by omega)
                  | err m => rfl
                  | out => rfl
                | Ident n => rfl
                | Number n => rfl
                | OpenParen => rfl
                | Plus => rfl
                | Minus => rfl
                | Asterisk => rfl
                | Slash => rfl
                | Caret => rfl
                | SquareRoot => rfl
                | Percent => rfl
                | Exclamation => rfl
                | CloseParen => rfl
        · -- postfixLoop
          intro minPrec lhs st hb1 hb2
          simp only [postfixLoop]
          cases hop : nextIfOp (fun t =>
              (PostfixOperator.fromToken t).filter
                (fun o => minPrec ≤ o.precedence)) st with
          | some p =>
            obtain ⟨op, st1x⟩ := p
            show postfixLoop g1 minPrec (op.build lhs) st1x =
              postfixLoop g2 minPrec (op.build lhs) st1x
            obtain ⟨t, ts, htoks, -, hst1⟩ := nextIfOp_eq_some hop
            have hL : st.toks.length = ts.length + 1 := by
              rw [htoks]
              rfl
            have hL1 : st1x.toks.length = ts.length := by
              rw [hst1]
            exact sP minPrec (op.build lhs) st1x (by omega) (by omega)
          | none => rfl
        · -- infixLoop
          intro minPrec lhs st hb1 hb2
          simp only [infixLoop]
          cases hop : nextIfOp (fun t =>
              (InfixOperator.fromToken t).filter
                (fun o => minPrec ≤ o.precedence)) st with
          | some p =>
            obtain ⟨op, st1x⟩ := p
            show pbind (parseExpression g1 (op.precedence + op.associativity) st1x)
                (fun rhs st2 => infixLoop g1 minPrec (op.build lhs rhs) st2) =
              pbind (parseExpression g2 (op.precedence + op.associativity) st1x)
                (fun rhs st2 => infixLoop g2 minPrec (op.build lhs rhs) st2)
            obtain ⟨t, ts, htoks, -, hst1⟩ := nextIfOp_eq_some hop
            have hL : st.toks.length = ts.length + 1 := by
              rw [htoks]
              rfl
            have hL1 : st1x.toks.length = ts.length := by
              rw [hst1]
            rw [sE (op.precedence + op.associativity) st1x (by omega) (by omega)]
            cases hx : parseExpression g2 (op.precedence + op.associativity) st1x with
            | ok e1 st1y =>
              simp only [pbind]
              have hc1 := cE _ _ _ _ hx
              exact sI minPrec (op.build lhs e1) st1y (by omega) (by omega)
            | err m => rfl
            | out => rfl
          | none => rfl

/-! ## Lexer meta-theory -/

theorem length_dropWhile_le (p : Char → Bool) (l : List Char) :
    (l.dropWhile p).length ≤ l.length :=
  (List.dropWhile_suffix p).sublist.length_le

theorem scanIdent_consumes {cs : List Char} {t : Token} {rest : List Char}
    (h : scanIdent cs = some (t, rest)) : rest.length < cs.length := by
  cases cs with
  | nil => simp [scanIdent] at h
  | cons c cs2 =>
    by_cases hc : rustIsAlphabetic c
    · simp only [scanIdent] at h
      rw [if_pos hc] at h
      injection h with h1
      injection h1 with ha hb
      rw [← hb]
      simp only [List.length_cons]
      exact Nat.lt_succ_of_le (length_dropWhile_le _ _)
    · simp only [scanIdent] at h
      rw [if_neg hc] at h
      simp at h

/-- Length bound for the fractional-part step of `scanNumber`. -/
theorem frStep_len (r1 : List Char) :
    ((match r1 with
      | '.' :: rest => ('.' :: rest.takeWhile Char.isDigit, rest.dropWhile Char.isDigit)
      | _ => (([] : List Char), r1)) : List Char × List Char).2.length ≤ r1.length := by
  split
  · next rest =>
    simp only [List.length_cons]
    exact Nat.le_succ_of_le (length_dropWhile_le _ _)
  · exact le_rfl

/-- Length bound for the exponent step of `scanNumber`. -/
theorem exStep_len (fr2 : List Char) :
    ((match fr2 with
      | c :: rest =>
        if c = 'e' ∨ c = 'E' then
          (c :: (match rest with
              | s :: rest2 =>
                if s = '+' ∨ s = '-' then ([s], rest2) else (([] : List Char), rest)
              | [] => (([] : List Char), rest)).1 ++
            (match rest with
              | s :: rest2 =>
                if s = '+' ∨ s = '-' then ([s], rest2) else (([] : List Char), rest)
              | [] => (([] : List Char), rest)).2.takeWhile Char.isDigit,
           (match rest with
              | s :: rest2 =>
                if s = '+' ∨ s = '-' then ([s], rest2) else (([] : List Char), rest)
              | [] => (([] : List Char), rest)).2.dropWhile Char.isDigit)
        else (([] : List Char), fr2)
      | [] => (([] : List Char), fr2)) : List Char × List Char).2.length ≤
      fr2.length := by
  split
  · next c rest =>
    by_cases he : c = 'e' ∨ c = 'E'
    · rw [if_pos he]
      rcases rest with _ | ⟨s, rest2⟩
      · simp
      · show ((if s = '+' ∨ s = '-' then (([s] : List Char), rest2)
            else (([] : List Char), s :: rest2)).2.dropWhile Char.isDigit).length ≤
          (c :: s :: rest2).length
        by_cases hs : s = '+' ∨ s = '-'
        · rw [if_pos hs]
          have hd := length_dropWhile_le Char.isDigit rest2
          simp only [List.length_cons]
          omega
        · rw [if_neg hs]
          have hd := length_dropWhile_le Char.isDigit (s :: rest2)
          simp only [List.length_cons] at hd ⊢
          omega
    · rw [if_neg he]
  · exact le_rfl

theorem scanNumber_consumes {cs : List Char} {t : Token} {rest : List Char}
    (h : scanNumber cs = some (t, rest)) : rest.length < cs.length := by
  simp only [scanNumber] at h
  by_cases hds : (cs.takeWhile Char.isDigit).isEmpty
  · rw [if_pos hds] at h
    simp at h
  · rw [if_neg hds] at h
    injection h with h1
    injection h1 with ha hb
    have hlt : (cs.dropWhile Char.isDigit).length < cs.length := by
      cases cs with
      | nil => simp at hds
      | cons c cs2 =>
        by_cases hc : c.isDigit
        · rw [List.dropWhile_cons_of_pos hc]
          exact Nat.lt_succ_of_le (length_dropWhile_le _ _)
        · rw [List.takeWhile_cons_of_neg hc] at hds
          simp at hds
    rw [← hb]
    exact lt_of_le_of_lt (le_trans (exStep_len _) (frStep_len _)) hlt

theorem scanSingle_consumes {f : Char → Option Token} {cs : List Char} {t : Token}
    {rest : List Char} (h : scanSingle f cs = some (t, rest)) :
    rest.length < cs.length := by
  cases cs with
  | nil => simp [scanSingle] at h
  | cons c cs2 =>
    simp only [scanSingle] at h
    cases hf : f c with
    | none =>
      rw [hf] at h
      simp at h
    | some t2 =>
      rw [hf] at h
      simp only [Option.map_some'] at h
      injection h with h1
      injection h1 with ha hb
      rw [← hb]
      simp

/-- A successful `Lexer::scan` consumes at least one character. -/
theorem scan1_consumes {cs : List Char} {t : Token} {rest : List Char}
    (h : scan1 cs = some (t, rest)) : rest.length < cs.length := by
  simp only [scan1] at h
  have hw : (cs.dropWhile rustIsWhitespace).length ≤ cs.length :=
    length_dropWhile_le _ _
  cases hi : scanIdent (cs.dropWhile rustIsWhitespace) with
  | some r =>
    simp only [hi] at h
    injection h with h1
    rw [h1] at hi
    exact lt_of_lt_of_le (scanIdent_consumes hi) hw
  | none =>
    simp only [hi] at h
    cases hn : scanNumber (cs.dropWhile rustIsWhitespace) with
    | some r =>
      simp only [hn] at h
      injection h with h1
      rw [h1] at hn
      exact lt_of_lt_of_le (scanNumber_consumes hn) hw
    | none =>
      simp only [hn] at h
      cases ho : scanSingle opToken (cs.dropWhile rustIsWhitespace) with
      | some r =>
        simp only [ho] at h
        injection h with h1
        rw [h1] at ho
        exact lt_of_lt_of_le (scanSingle_consumes ho) hw
      | none =>
        simp only [ho] at h
        exact lt_of_lt_of_le (scanSingle_consumes h) hw

/-- The token-collection loop never runs out of fuel exceeding the number of
remaining characters. -/
theorem lexGo_total : ∀ (fuel : ℕ) (cs : List Char), cs.length < fuel →
    lexGo fuel cs ≠ none := by
  intro fuel
  induction fuel with
  | zero =>
    intro cs hl
    omega
  | succ f ih =>
    intro cs hl h
    simp only [lexGo] at h
    cases hs : scan1 cs with
    | some r =>
      obtain ⟨t, rest⟩ := r
      simp only [hs] at h
      have hlt := scan1_consumes hs
      cases hg : lexGo f rest with
      | none => exact ih rest (by omega) hg
      | some p =>
        rw [hg] at h
        simp at h
    | none =>
      simp only [hs] at h
      simp at h

/-- The lexer, driven to exhaustion, is total. -/
theorem lexChars_total (cs : List Char) : lexChars cs ≠ none :=
  lexGo_total (cs.length + 1) cs (by omega)

/-- `Parser::parse` on a lexed state never exhausts the chosen fuel. -/
theorem parseGo_not_out (st : PState) : parseGo st ≠ .out := by
  intro h
  simp only [parseGo] at h
  cases hx : parseExpression (2 * st.toks.length + 4) 1 st with
  | ok e st2 =>
    rw [hx] at h
    simp only [pbind] at h
    obtain ⟨toks2, ec2⟩ := st2
    cases toks2 with
    | cons t ts => simp at h
    | nil =>
      cases ec2 with
      | some c => simp at h
      | none => simp at h
  | err m =>
    rw [hx] at h
    simp [pbind] at h
  | out => exact (parseNoOut _).1 1 st (by omega) hx

/-- The public parse entry point is total: it never returns the fuel-out
marker. -/
theorem parseTop_not_out (s : String) : parseTop s ≠ .out := by
  intro h
  simp only [parseTop] at h
  cases hl : lexChars s.data with
  | none => exact lexChars_total s.data hl
  | some p =>
    obtain ⟨ts, ec⟩ := p
    simp only [hl] at h
    exact parseGo_not_out _ h

/-! ## Unary-plus erasure machinery -/

/-- At minimum precedence 5 the postfix loop never fires (the only postfix
operator has precedence 4). -/
theorem postfixLoop_minPrec5 (fuel : ℕ) (lhs : Expression) (st : PState) :
    postfixLoop (fuel + 1) 5 lhs st = .ok lhs st := by
  obtain ⟨toks, ec⟩ := st
  cases toks with
  | nil => rfl
  | cons t ts => cases t <;> rfl

/-- At minimum precedence 5 the infix loop never fires (infix precedences
are at most 3). -/
theorem infixLoop_minPrec5 (fuel : ℕ) (lhs : Expression) (st : PState) :
    infixLoop (fuel + 1) 5 lhs st = .ok lhs st := by
  obtain ⟨toks, ec⟩ := st
  cases toks with
  | nil => rfl
  | cons t ts => cases t <;> rfl

/-- Parsing at minimum precedence 5 is exactly the `lhs` initializer. -/
theorem parseExpression_at5 (fuel : ℕ) (st : PState) :
    parseExpression (fuel + 2) 5 st = lhs0Fn (fuel + 1) st := by
  rw [parseExpression_succ]
  cases hx : lhs0Fn (fuel + 1) st with
  | ok e st1 =>
    simp only [pbind]
    rw [postfixLoop_minPrec5]
    simp only [pbind]
    rw [infixLoop_minPrec5]
  | err m => rfl
  | out => rfl

/-- `parse_expression(minPrec)` = parse at precedence 5, then run the two
operator loops at `minPrec`. -/
theorem parseExpression_step5 (fuel minPrec : ℕ) (st : PState) :
    parseExpression (fuel + 2) minPrec st =
      pbind (parseExpression (fuel + 2) 5 st) (fun lhs st1 =>
        pbind (postfixLoop (fuel + 1) minPrec lhs st1)
          (fun l2 st2 => infixLoop (fuel + 1) minPrec l2 st2)) := by
  rw [parseExpression_at5, parseExpression_succ]

/-- A leading `+` token resolves to the prefix-plus operator, whose `build`
returns the operand unchanged. -/
theorem lhs0Fn_cons_plus (fuel : ℕ) (ts : List Token) (ec : Option Char) :
    lhs0Fn fuel ⟨.Plus :: ts, ec⟩ = parseExpression fuel 5 ⟨ts, ec⟩ := by
  have h : lhs0Fn fuel ⟨.Plus :: ts, ec⟩ =
      pbind (parseExpression fuel 5 (⟨ts, ec⟩ : PState))
        (fun e st2 => .ok e st2) := rfl
  rw [h, pbind_ok_id]

theorem parseExpression_cons_plus (fuel minPrec : ℕ) (ts : List Token)
    (ec : Option Char) :
    parseExpression (fuel + 1) minPrec ⟨.Plus :: ts, ec⟩ =
      pbind (parseExpression fuel 5 (⟨ts, ec⟩ : PState)) (fun lhs st1 =>
        pbind (postfixLoop fuel minPrec lhs st1)
          (fun l2 st2 => infixLoop fuel minPrec l2 st2)) := by
  rw [parseExpression_succ, lhs0Fn_cons_plus]

/-- The lexer turns a leading `+` into a `Plus` token and scans the rest
unchanged. -/
theorem scan1_cons_plus (cs : List Char) : scan1 ('+' :: cs) = some (.Plus, cs) := by
  have h1 : ('+' :: cs).dropWhile rustIsWhitespace = '+' :: cs :=
    List.dropWhile_cons_of_neg (by decide)
  have h2 : scanIdent ('+' :: cs) = none := by
    simp only [scanIdent]
    rw [if_neg (by decide)]
  have h3 : scanNumber ('+' :: cs) = none := by
    simp only [scanNumber]
    rw [List.takeWhile_cons_of_neg (by decide)]
    rfl
  simp only [scan1, h1, h2, h3]
  rfl

theorem lexChars_cons_plus (cs : List Char) :
    lexChars ('+' :: cs) = (lexChars cs).map (fun p => (Token.Plus :: p.1, p.2)) := by
  show lexGo (('+' :: cs).length + 1) ('+' :: cs) = _
  rw [show ('+' :: cs).length + 1 = (cs.length + 1) + 1 from by
    simp [List.length_cons]]
  simp only [lexGo, scan1_cons_plus]
  rfl

/-- Dropping a leading `Plus` token before the top-level parse does not
change the outcome. -/
theorem parseGo_cons_plus (ts : List Token) (ec : Option Char) :
    parseGo ⟨.Plus :: ts, ec⟩ = parseGo ⟨ts, ec⟩ := by
  obtain ⟨sE1, -, -, -, -⟩ :=
    parseStable (4 * ts.length + 9) (2 * ts.length + 5) (2 * ts.length + 4) (by omega)
  obtain ⟨-, -, -, sP1, sI1⟩ :=
    parseStable (4 * ts.length + 8) (2 * ts.length + 5) (2 * ts.length + 3) (by omega)
  obtain ⟨cE4, -, -, -, -⟩ := parseConsume (2 * ts.length + 4)
  obtain ⟨-, -, -, cP3, -⟩ := parseConsume (2 * ts.length + 3)
  simp only [parseGo]
  rw [show 2 * (⟨Token.Plus :: ts, ec⟩ : PState).toks.length + 4 =
      (2 * ts.length + 5) + 1 from by
    show 2 * (Token.Plus :: ts).length + 4 = (2 * ts.length + 5) + 1
    simp [List.length_cons]
    omega]
  rw [parseExpression_cons_plus (2 * ts.length + 5) 1 ts ec]
  rw [show 2 * (⟨ts, ec⟩ : PState).toks.length + 4 = (2 * ts.length + 2) + 2 from by
    show 2 * ts.length + 4 = (2 * ts.length + 2) + 2
    omega]
  rw [parseExpression_step5 (2 * ts.length + 2) 1 (⟨ts, ec⟩ : PState)]
  rw [show (2 * ts.length + 2) + 2 = 2 * ts.length + 4 from by omega]
  rw [show (2 * ts.length + 2) + 1 = 2 * ts.length + 3 from by omega]
  rw [sE1 5 (⟨ts, ec⟩ : PState)
    (by show 2 * ts.length + 2 ≤ 2 * ts.length + 5; omega)
    (by show 2 * ts.length + 2 ≤ 2 * ts.length + 4; omega)]
  cases hx : parseExpression (2 * ts.length + 4) 5 (⟨ts, ec⟩ : PState) with
  | ok e st1 =>
    simp only [pbind]
    have hc1 := cE4 _ _ _ _ hx
    have hc1' : st1.toks.length < ts.length := hc1
    rw [sP1 1 e st1 (by omega) (by omega)]
    cases hp : postfixLoop (2 * ts.length + 3) 1 e st1 with
    | ok l2 st2 =>
      simp only [pbind]
      have hc2 := cP3 _ _ _ _ _ hp
      rw [sI1 1 l2 st2 (by omega) (by omega)]
    | err m => rfl
    | out => rfl
  | err m => rfl
  | out => rfl

/-! ## Truncated-remainder analysis (for the Modulo claim) -/

/-- The fractional part left by truncation toward zero has magnitude below
one. -/
theorem ratTrunc_frac_bounds (q : ℚ) : |q - (ratTrunc q : ℚ)| < 1 := by
  unfold ratTrunc
  split
  · next h =>
    have h1 := Int.floor_le q
    have h2 := Int.lt_floor_add_one q
    rw [abs_lt]
    constructor <;> push_cast <;> linarith
  · next h =>
    have h1 := Int.le_ceil q
    have h2 := Int.ceil_lt_add_one q
    rw [abs_lt]
    constructor <;> push_cast <;> linarith

/-- On nonnegative inputs the truncation fraction is nonnegative. -/
theorem ratTrunc_frac_sign (q : ℚ) (h : 0 ≤ q) : 0 ≤ q - (ratTrunc q : ℚ) := by
  unfold ratTrunc
  rw [if_pos h]
  have h1 := Int.floor_le q
  push_cast
  linarith

/-- The truncated remainder has magnitude strictly below the divisor's. -/
theorem fmod_abs_lt (x b : ℚ) (hb : b ≠ 0) :
    |x - (ratTrunc (x / b) : ℚ) * b| < |b| := by
  have hkey : x - (ratTrunc (x / b) : ℚ) * b =
      (x / b - (ratTrunc (x / b) : ℚ)) * b := by
    rw [sub_mul, div_mul_cancel₀ _ hb]
  rw [hkey, abs_mul]
  have hfrac := ratTrunc_frac_bounds (x / b)
  have hbpos : 0 < |b| := abs_pos.mpr hb
  calc |x / b - (ratTrunc (x / b) : ℚ)| * |b| < 1 * |b| :=
        mul_lt_mul_of_pos_right hfrac hbpos
    _ = |b| := one_mul _

/-- When dividend and divisor agree in sign, the truncated remainder agrees
in sign with the divisor. -/
theorem fmod_sign (x b : ℚ) (hb : b ≠ 0) (hxb : 0 ≤ x * b) :
    0 ≤ (x - (ratTrunc (x / b) : ℚ) * b) * b := by
  have hq : 0 ≤ x / b := by
    rw [div_nonneg_iff]
    rcases mul_nonneg_iff.mp hxb with ⟨h1, h2⟩ | ⟨h1, h2⟩
    · exact Or.inl ⟨h1, h2⟩
    · exact Or.inr ⟨h1, h2⟩
  have hfrac := ratTrunc_frac_sign (x / b) hq
  have hkey : x - (ratTrunc (x / b) : ℚ) * b =
      (x / b - (ratTrunc (x / b) : ℚ)) * b := by
    rw [sub_mul, div_mul_cancel₀ _ hb]
  rw [hkey]
  have hassoc : (x / b - (ratTrunc (x / b) : ℚ)) * b * b =
      (x / b - (ratTrunc (x / b) : ℚ)) * (b * b) := by ring
  rw [hassoc]
  exact mul_nonneg hfrac (mul_self_nonneg b)

/-- The corrected behaviour of the Modulo arm on finite operands: for a
nonzero divisor whose doubled magnitude stays below `f64::MAX` (so the
intermediate addition cannot overflow), the result is finite with the
divisor's sign and magnitude strictly below the divisor's. -/
theorem modOp_fin (l r : ℚ) (hr : r ≠ 0) (hmax : 2 * |r| ≤ maxQ) :
    ∃ m : ℚ, modOp (.fin l) (.fin r) = .fin m ∧ |m| < |r| ∧ 0 ≤ m * r := by
  have h1 : F64.fmod (.fin l) (.fin r) = .fin (l - (ratTrunc (l / r) : ℚ) * r) := by
    show (if r = 0 then F64.nan else F64.fin (l - (ratTrunc (l / r) : ℚ) * r)) = _
    rw [if_neg hr]
  set m0 : ℚ := l - (ratTrunc (l / r) : ℚ) * r with hm0
  have habs0 : |m0| < |r| := fmod_abs_lt l r hr
  have habs_sum : |m0 + r| ≤ maxQ := by
    have ha := abs_add m0 r
    linarith [habs0]
  have h2 : F64.add (.fin m0) (.fin r) = .fin (rndQ (m0 + r)) := by
    show f64ofRat (m0 + r) = _
    exact f64ofRat_fin _ habs_sum
  have hxr : 0 ≤ rndQ (m0 + r) * r := by
    rcases lt_trichotomy r 0 with hneg | hzero | hpos
    · have habs0' := abs_lt.mp habs0
      rw [abs_of_neg hneg] at habs0'
      have hsum : m0 + r ≤ 0 := by linarith [habs0'.2]
      exact mul_nonneg_iff.mpr (Or.inr ⟨rndQ_nonpos _ hsum, le_of_lt hneg⟩)
    · exact absurd hzero hr
    · have habs0' := abs_lt.mp habs0
      rw [abs_of_pos hpos] at habs0'
      have hsum : 0 ≤ m0 + r := by linarith [habs0'.1]
      exact mul_nonneg (rndQ_nonneg _ hsum) (le_of_lt hpos)
  have h3 : F64.fmod (.fin (rndQ (m0 + r))) (.fin r) =
      .fin (rndQ (m0 + r) - (ratTrunc (rndQ (m0 + r) / r) : ℚ) * r) := by
    show (if r = 0 then F64.nan else _) = _
    rw [if_neg hr]
  refine ⟨rndQ (m0 + r) - (ratTrunc (rndQ (m0 + r) / r) : ℚ) * r, ?_,
    fmod_abs_lt _ r hr, fmod_sign _ r hr hxr⟩
  show F64.fmod (F64.add (F64.fmod (.fin l) (.fin r)) (.fin r)) (.fin r) = _
  rw [h1, h2, h3]

/-! ## The claims -/

/-- The saturating cast applied by the Factorial arm, on a nonnegative
truncated value, is a clamp at `i64::MAX`. -/
theorem castI64_trunc_fin (q : ℚ) (h : 0 ≤ q) :
    F64.castI64 (F64.trunc (.fin q)) =
      min ((pow2n 63 - 1 : ℕ) : ℤ) (ratTrunc q) := by
  show max (-((pow2n 63 : ℕ) : ℤ)) (min ((pow2n 63 - 1 : ℕ) : ℤ)
      (ratTrunc ((ratTrunc q : ℤ) : ℚ))) = _
  rw [ratTrunc_intCast]
  have h0 : 0 ≤ ratTrunc q := ratTrunc_nonneg q h
  have h1 : (0 : ℤ) ≤ ((pow2n 63 : ℕ) : ℤ) := Int.natCast_nonneg _
  have h2 : (0 : ℤ) ≤ ((pow2n 63 - 1 : ℕ) : ℤ) := Int.natCast_nonneg _
  omega

/-- Claim C2: the Factorial arm of `Expression::evaluate` implements the
specified contract: `+∞` maps to `+∞`; a negative or fractional operand
(including NaN) maps to NaN; otherwise the result is the double-precision
left fold of `1 × 2 × ⋯ × trunc(n)`, the empty product giving `0! = 1`.
In particular `"3.14!"` and `"-1!"` evaluate to NaN, `"0!"` to `1.0` and
`"inf!"` to `+∞`.  (The saturation of the `as i64` cast at `2^63 - 1` is
unobservable: past `171!` the fold is already `+∞`.) -/
theorem claim_C2_factorial :
    (∀ n : F64, factOp n = specFactorial n) ∧
    (∀ lib : LibM,
      evalString lib "3.14!" = some .nan ∧
      evalString lib "-1!" = some .nan ∧
      evalString lib "0!" = some (.fin 1) ∧
      evalString lib "inf!" = some (.inf false)) := by
  constructor
  · intro n
    cases n with
    | nan => with_unfolding_all decide
    | inf b => cases b <;> with_unfolding_all decide
    | fin q =>
      show (if F64.feq (.fin q) (.inf false) then (.fin q)
        else if F64.flt (.fin q) (.fin 0) || F64.fne (F64.fract (.fin q)) (.fin 0) then .nan
        else foldFact (F64.castI64 (F64.trunc (.fin q)))) =
        (if q < 0 ∨ q.den ≠ 1 then .nan else foldFact (ratTrunc q))
      rw [show F64.feq (.fin q) (.inf false) = false from rfl]
      rw [show F64.flt (.fin q) (.fin 0) = decide (q < 0) from rfl]
      rw [show F64.fract (.fin q) = .fin (q - (ratTrunc q : ℚ)) from rfl]
      rw [show F64.fne (.fin (q - (ratTrunc q : ℚ))) (.fin 0) =
        !(decide (q - (ratTrunc q : ℚ) = 0)) from rfl]
      simp only [Bool.false_eq_true, if_false, Bool.or_eq_true, decide_eq_true_eq,
        Bool.not_eq_eq_eq_not, Bool.not_true, decide_eq_false_iff_not, sub_ne_zero]
      by_cases hneg : q < 0
      · rw [if_pos (Or.inl hneg), if_pos (Or.inl hneg)]
      · by_cases hden : q.den = 1
        · have hint : ((ratTrunc q : ℤ) : ℚ) = q := (ratTrunc_cast_eq_iff q).mpr hden
          rw [if_neg (by push_neg; exact ⟨not_lt.mp hneg, hint.symm⟩),
            if_neg (by push_neg; exact ⟨not_lt.mp hneg, hden⟩)]
          rw [castI64_trunc_fin q (not_lt.mp hneg)]
          rcases le_total (ratTrunc q) ((pow2n 63 - 1 : ℕ) : ℤ) with hc | hc
          · rw [min_eq_right hc]
          · rw [min_eq_left hc]
            have hbig : (171 : ℤ) ≤ ((pow2n 63 - 1 : ℕ) : ℤ) := by
              with_unfolding_all decide
            rw [foldFact_inf _ hbig, foldFact_inf _ (le_trans hbig hc)]
        · have hint : ((ratTrunc q : ℤ) : ℚ) ≠ q := fun hc =>
            hden ((ratTrunc_cast_eq_iff q).mp hc)
          rw [if_pos (Or.inr (fun hc => hint hc.symm)), if_pos (Or.inr hden)]
  · intro lib
    refine ⟨?_, ?_, ?_, ?_⟩ <;> with_unfolding_all rfl

/-- Claim C3: the Round arm evaluates the decimal count and returns NaN when
it is negative, non-integral, infinite, or NaN; otherwise it returns
`(scale * value).round() / scale` with `scale = 10^decimals` computed by
`powf` and rounding half away from zero; and a one-argument `round(x)` call
parses to a `Round` node whose decimals child is the number `0`.  In
particular `"round(3.14, -1)"` evaluates to NaN and `"round(3.14, 1)"` to
the double `3.1`. -/
theorem claim_C3_round :
    (∀ a : Expression, buildFunction "round" [a] =
      .ok (.Round a (.Number (.fin 0)))) ∧
    (∀ n d : F64,
      (d = .nan ∨ d = .inf false ∨ d = .inf true ∨
        (∃ q : ℚ, d = .fin q ∧ (q < 0 ∨ q.den ≠ 1))) →
      roundOp n d = .nan) ∧
    (∀ (n : F64) (q : ℚ), 0 ≤ q → q.den = 1 →
      roundOp n (.fin q) =
        F64.div (F64.roundHA (F64.mul (F64.pow (.fin 10) (.fin q)) n))
          (F64.pow (.fin 10) (.fin q))) ∧
    (∀ lib : LibM,
      evalString lib "round(3.14, -1)" = some .nan ∧
      evalString lib "round(3.14, 1)" = some (.fin (6980579422424269 / 2 ^ 51)) ∧
      evalString lib "round(3.14)" = evalString lib "round(3.14, 0)") := by
  refine ⟨?_, ?_, ?_, ?_⟩
  · intro a
    with_unfolding_all rfl
  · intro n d hd
    unfold roundOp
    rcases hd with h | h | h | ⟨q, hq, hcond⟩
    · subst h
      rfl
    · subst h
      rfl
    · subst h
      rfl
    · subst hq
      rw [show F64.flt (.fin q) (.fin 0) = decide (q < 0) from rfl]
      rw [show F64.fract (.fin q) = .fin (q - (ratTrunc q : ℚ)) from rfl]
      rw [show F64.fne (.fin (q - (ratTrunc q : ℚ))) (.fin 0) =
        !(decide (q - (ratTrunc q : ℚ) = 0)) from rfl]
      rcases hcond with hneg | hden
      · simp [hneg]
      · have hint : q - ((ratTrunc q : ℤ) : ℚ) ≠ 0 := fun hc =>
          hden ((ratTrunc_cast_eq_iff q).mp (by linarith [sub_eq_zero.mp hc]))
        simp [hint]
  · intro n q h0 hden
    unfold roundOp
    have hint : ((ratTrunc q : ℤ) : ℚ) = q := (ratTrunc_cast_eq_iff q).mpr hden
    rw [show F64.flt (.fin q) (.fin 0) = decide (q < 0) from rfl]
    rw [show F64.fract (.fin q) = .fin (q - (ratTrunc q : ℚ)) from rfl]
    rw [show F64.fne (.fin (q - (ratTrunc q : ℚ))) (.fin 0) =
      !(decide (q - (ratTrunc q : ℚ) = 0)) from rfl]
    simp [not_lt.mpr h0, sub_eq_zero.mpr hint.symm]
  · intro lib
    refine ⟨?_, ?_, ?_⟩ <;> with_unfolding_all rfl

/-- A closed instantiation of the conditional parts of `claim_C3_round`. -/
theorem claim_C3_round_witness :
    roundOp (.fin 1) (.fin (-1)) = .nan ∧
    roundOp (.fin 1) (.fin 2) =
      F64.div (F64.roundHA (F64.mul (F64.pow (.fin 10) (.fin 2)) (.fin 1)))
        (F64.pow (.fin 10) (.fin 2)) :=
  ⟨claim_C3_round.2.1 (.fin 1) (.fin (-1))
      (Or.inr (Or.inr (Or.inr ⟨-1, rfl, Or.inl (by norm_num)⟩))),
    claim_C3_round.2.2.1 (.fin 1) 2 (by norm_num) (by with_unfolding_all decide)⟩

/-- Claim C4: the constant table resolves case-insensitively over
`{e, pi, inf, nan}` and unknown names fail; but the `π` alias is broken in
the source (its match arm is the mojibake two-character string `"Ï€"`, bytes
C3 8F E2 82 AC, which no lexable identifier can produce), so `parse("π")`
fails with an unknown-constant error although the repository's tests
(`constant_pi_utf8`, `constant_pi_utf8_cap`) require it to produce the Pi
constant. -/
theorem claim_C4_constants :
    parseTop "pi" = .ok (.Constant .Pi) ⟨[], none⟩ ∧
    parseTop "PI" = .ok (.Constant .Pi) ⟨[], none⟩ ∧
    parseTop "E" = .ok (.Constant .E) ⟨[], none⟩ ∧
    parseTop "inf" = .ok (.Constant .Infinity) ⟨[], none⟩ ∧
    parseTop "NaN" = .ok (.Constant .NaN) ⟨[], none⟩ ∧
    parseTop "foo" = .err "Unknown constant foo" ∧
    parseTop "π" = .err "Unknown constant π" ∧
    parseTop "Π" = .err "Unknown constant Π" ∧
    buildConstant "π" = .error "Unknown constant π" := by
  refine ⟨?_, ?_, ?_, ?_, ?_, ?_, ?_, ?_, ?_⟩ <;> first
    | with_unfolding_all decide
    | with_unfolding_all rfl

/-- Claim C5: the fixed precedence/associativity table (prefix `-`, `+`, `√`
at 5, right; infix `+``-` at 1 left, `*``/``%` at 2 left, `^` at 3 right;
postfix `!` at 4 left), with its consequences: `"2^3^2"` parses as
`2^(3^2)` and evaluates to `512`, `"7 - 4 + 2"` evaluates to `5`, and
`"2 ^ 3!"` evaluates to `64`. -/
theorem claim_C5_precedence :
    (∀ p : PrefixOperator, p.precedence = 5 ∧ p.associativity = associatesRight) ∧
    (InfixOperator.Add.precedence = 1 ∧ InfixOperator.Subtract.precedence = 1 ∧
      InfixOperator.Multiply.precedence = 2 ∧ InfixOperator.Divide.precedence = 2 ∧
      InfixOperator.Modulo.precedence = 2 ∧ InfixOperator.Exponentiate.precedence = 3) ∧
    (InfixOperator.Exponentiate.associativity = associatesRight ∧
      InfixOperator.Add.associativity = associatesLeft ∧
      InfixOperator.Subtract.associativity = associatesLeft ∧
      InfixOperator.Multiply.associativity = associatesLeft ∧
      InfixOperator.Divide.associativity = associatesLeft ∧
      InfixOperator.Modulo.associativity = associatesLeft) ∧
    (∀ p : PostfixOperator, p.precedence = 4 ∧ p.associativity = associatesLeft) ∧
    parseTop "2^3^2" =
      .ok (.Exponentiate (.Number (.fin 2))
        (.Exponentiate (.Number (.fin 3)) (.Number (.fin 2)))) ⟨[], none⟩ ∧
    (∀ lib : LibM,
      evalString lib "2^3^2" = some (.fin 512) ∧
      evalString lib "7 - 4 + 2" = some (.fin 5) ∧
      evalString lib "2 ^ 3!" = some (.fin 64)) := by
  refine ⟨fun p => by cases p <;> exact ⟨rfl, rfl⟩,
    ⟨rfl, rfl, rfl, rfl, rfl, rfl⟩,
    ⟨rfl, rfl, rfl, rfl, rfl, rfl⟩,
    fun p => by cases p <;> exact ⟨rfl, rfl⟩,
    by with_unfolding_all decide,
    fun lib => ⟨?_, ?_, ?_⟩⟩ <;> with_unfolding_all rfl

/-- Claim C7 (settled against the source, which here contradicts the
repository's own test-suite): wrong argument counts and unknown function
names make parsing fail, but the two arity violations produce the single
message family `"<name>() takes ... args, received ..."` rather than the
distinct missing-argument / unexpected-argument errors the tests
(`func_args_missing`, `func_args_many`) assert. -/
theorem claim_C7_arity :
    parseTop "sqrt()" = .err "sqrt() takes 1 args, received 0" ∧
    parseTop "sqrt(1, 2)" = .err "sqrt() takes 1 args, received 2" ∧
    parseTop "foo(1)" = .err "Unknown function foo" ∧
    parseTop "round()" = .err "round() takes 1-2 args, received 0" ∧
    parseTop "round(1, 2, 3)" = .err "round() takes 1-2 args, received 3" ∧
    (∀ lib : LibM, evalString lib "round(1, 2)" = some (.fin 1)) := by
  refine ⟨?_, ?_, ?_, ?_, ?_, fun lib => ?_⟩ <;> first
    | with_unfolding_all decide
    | with_unfolding_all rfl

/-- Claim C8: the lexer scans a number literal as digits, an optional dot
with optional digits, and an optional exponent marker with optional sign and
digits, keeping the text; conversion to a double happens only when the
parser builds the `Number` leaf, so the malformed `"3e"` lexes without error
and fails at atom-building time with an invalid-number error. -/
theorem claim_C8_numbers :
    (∀ lit : String, strToF64 lit = none →
      buildNumber lit = .error "invalid number: invalid float literal") ∧
    (∀ (lit : String) (v : F64), strToF64 lit = some v →
      buildNumber lit = .ok (.Number v)) ∧
    lexChars "3e".data = some ([.Number "3e"], none) ∧
    parseTop "3e" = .err "invalid number: invalid float literal" ∧
    lexChars "3.".data = some ([.Number "3."], none) ∧
    parseTop "3." = .ok (.Number (.fin 3)) ⟨[], none⟩ ∧
    lexChars "3.14e+2".data = some ([.Number "3.14e+2"], none) ∧
    parseTop "3e2" = .ok (.Number (.fin 300)) ⟨[], none⟩ := by
  refine ⟨?_, ?_, ?_, ?_, ?_, ?_, ?_, ?_⟩
  · intro lit h
    unfold buildNumber
    rw [h]
  · intro lit v h
    unfold buildNumber
    rw [h]
  all_goals with_unfolding_all decide

/-- A closed instantiation of the conditional parts of `claim_C8_numbers`. -/
theorem claim_C8_numbers_witness :
    buildNumber "3e" = .error "invalid number: invalid float literal" ∧
    buildNumber "3" = .ok (.Number (.fin 3)) :=
  ⟨claim_C8_numbers.1 "3e" (by with_unfolding_all decide),
    claim_C8_numbers.2.1 "3" (.fin 3) (by with_unfolding_all decide)⟩

/-- Claim C9: the prefix `√` operator and the `sqrt(...)` function build the
same `SquareRoot` node, hence evaluate identically on every operand; and the
concrete inputs `"√4"` and `"sqrt(4)"` produce equal trees. -/
theorem claim_C9_sqrt :
    (∀ e : Expression, PrefixOperator.build .SquareRoot e = .SquareRoot e) ∧
    (∀ e : Expression, buildFunction "sqrt" [e] = .ok (.SquareRoot e)) ∧
    (∀ (lib : LibM) (e : Expression),
      evaluate lib (PrefixOperator.build .SquareRoot e) =
        evaluate lib (Expression.SquareRoot e)) ∧
    parseTop "√4" = parseTop "sqrt(4)" ∧
    parseTop "√(2 + 2)" = parseTop "sqrt(2 + 2)" := by
  refine ⟨fun e => rfl, fun e => by with_unfolding_all rfl, fun lib e => rfl, ?_, ?_⟩ <;>
    with_unfolding_all decide

/-- Claim C6: parsing is total — it never exhausts its fuel on any input
string, so it always returns either a complete expression or a single error;
the empty string fails with the unexpected-end-of-input error, and any token
left after one `parse_expression(1)` makes `parse` fail with an
unexpected-token error naming that token (so `"1 + 2)"` reports the stray
closing parenthesis). -/
theorem claim_C6_parse_total :
    (∀ s : String, parseTop s ≠ .out) ∧
    parseTop "" = .err "Unexpected end of input" ∧
    (∀ (st : PState) (e : Expression) (st2 : PState) (t : Token)
      (rest : List Token),
      parseExpression (2 * st.toks.length + 4) 1 st = .ok e st2 →
      st2.toks = t :: rest →
      parseGo st = .err ("Unexpected token " ++ tokenStr t)) ∧
    parseTop "1 + 2)" = .err "Unexpected token )" := by
  refine ⟨parseTop_not_out, by with_unfolding_all decide, ?_,
    by with_unfolding_all decide⟩
  intro st e st2 t rest hok htoks
  simp only [parseGo, hok, pbind, htoks]

/-- A closed instantiation of the leftover-token law of
`claim_C6_parse_total`. -/
theorem claim_C6_parse_total_witness :
    parseExpression
        (2 * (⟨[Token.Number "1", Token.CloseParen], none⟩ : PState).toks.length + 4)
        1 ⟨[Token.Number "1", Token.CloseParen], none⟩ =
      .ok (.Number (.fin 1)) ⟨[Token.CloseParen], none⟩ ∧
    parseGo ⟨[Token.Number "1", Token.CloseParen], none⟩ =
      .err ("Unexpected token " ++ tokenStr Token.CloseParen) :=
  ⟨by with_unfolding_all decide,
    claim_C6_parse_total.2.2.1 ⟨[Token.Number "1", Token.CloseParen], none⟩
      (.Number (.fin 1)) ⟨[Token.CloseParen], none⟩ Token.CloseParen []
      (by with_unfolding_all decide) rfl⟩

/-- Claim C10: unary plus is erased at parse time — the prefix-plus
operator's `build` returns its operand unchanged, and (more strongly than
the claim, with no success hypothesis needed) prepending `"+"` to any input
string leaves the entire parse outcome unchanged. -/
theorem claim_C10_unary_plus :
    (∀ e : Expression, PrefixOperator.build .Plus e = e) ∧
    (∀ s : String, parseTop ("+" ++ s) = parseTop s) := by
  refine ⟨fun e => rfl, fun s => ?_⟩
  have hdata : ("+" ++ s).data = '+' :: s.data := by
    cases s
    rfl
  simp only [parseTop, hdata, lexChars_cons_plus]
  cases hl : lexChars s.data with
  | none => rfl
  | some p =>
    obtain ⟨ts, ec⟩ := p
    simp only [Option.map_some']
    exact parseGo_cons_plus ts ec

/-- Claim C1, as corrected: the Modulo arm computes `((l % r) + r) % r` with
the truncating `%` (C `fmod`), not the IEEE-754 `remainder` the claim names.
NaN results for NaN/infinite operands and zero divisors hold as claimed, as
do the two sign examples; the sign-of-divisor and magnitude bound hold for
finite operands provided additionally `2·|r| ≤ f64::MAX`, so that the
intermediate addition cannot overflow (without that proviso the result can
be NaN; see the counterexample theorem). -/
theorem claim_C1_modulo :
    (∀ x : F64, modOp .nan x = .nan ∧ modOp x .nan = .nan) ∧
    (∀ (b : Bool) (x : F64), modOp (.inf b) x = .nan) ∧
    (∀ (b : Bool) (a : ℚ), modOp (.fin a) (.inf b) = .nan) ∧
    (∀ a : ℚ, modOp (.fin a) (.fin 0) = .nan) ∧
    (∀ lib : LibM,
      evalString lib "-5 % 3" = some (.fin 1) ∧
      evalString lib "5 % -3" = some (.fin (-1))) ∧
    (∀ l r : ℚ, r ≠ 0 → 2 * |r| ≤ maxQ →
      ∃ m : ℚ, modOp (.fin l) (.fin r) = .fin m ∧ |m| < |r| ∧ 0 ≤ m * r) := by
  refine ⟨?_, ?_, ?_, ?_, ?_, modOp_fin⟩
  · intro x
    cases x <;> exact ⟨rfl, rfl⟩
  · intro b x
    cases x <;> rfl
  · intro b a
    rfl
  · intro a
    show F64.fmod (F64.add (F64.fmod (.fin a) (.fin 0)) (.fin 0)) (.fin 0) = .nan
    have h1 : F64.fmod (.fin a) (.fin 0) = .nan := by
      show (if (0 : ℚ) = 0 then F64.nan
        else F64.fin (a - (ratTrunc (a / 0) : ℚ) * 0)) = F64.nan
      rw [if_pos rfl]
    rw [h1]
    rfl
  · intro lib
    exact ⟨by with_unfolding_all rfl, by with_unfolding_all rfl⟩

/-- A closed instantiation of the sign/magnitude law of `claim_C1_modulo`. -/
theorem claim_C1_modulo_witness :
    (3 : ℚ) ≠ 0 ∧ 2 * |(3 : ℚ)| ≤ maxQ ∧
    ∃ m : ℚ, modOp (.fin 5) (.fin 3) = .fin m ∧ |m| < |(3 : ℚ)| ∧ 0 ≤ m * 3 :=
  ⟨by norm_num, by with_unfolding_all decide,
    claim_C1_modulo.2.2.2.2.2 5 3 (by norm_num) (by with_unfolding_all decide)⟩

/-- Counterexample to claim C1 as stated.  First, the claimed formula
`((l rem r) + r) rem r` with `rem` the IEEE-754 remainder (`specModulo`)
disagrees with the code (`modOp`) already on `5 % 3`: the code gives `2`,
the claimed formula gives `-1` — which also violates the claim's own
sign-of-divisor sentence.  Second, the sign/magnitude sentence fails for
finite operands without an overflow proviso: with `l = 2^1000` and
`r = f64::MAX` both finite and `r ≠ 0`, the intermediate addition overflows
and the code returns NaN. -/
theorem claim_C1_modulo_counterexample :
    modOp (.fin 5) (.fin 3) = .fin 2 ∧
    specModulo (.fin 5) (.fin 3) = .fin (-1) ∧
    modOp (.fin ((pow2n 1000 : ℕ) : ℚ)) (.fin maxQ) = .nan := by
  refine ⟨?_, ?_, ?_⟩ <;> with_unfolding_all decide

end Rustcalc
